import Mathlib

/-!
# A verification development for dumpfloppy

This file gives a shallow embedding, in Lean 4, of the core data model and
algorithms of the dumpfloppy suite (dumpfloppy.cpp, imd.cpp, imdcat.cpp,
disk.cpp), and proves properties of them.

Modelling conventions:
* machine bytes and machine integers are `Nat`; where the C code relies on the
  width of a type, an explicit bound (`< 256`, `< 2 ^ 32`) appears as an
  invariant or a hypothesis;
* `std::basic_string<uint8_t>` (the `data_t` of disk.h) is `List Nat`;
* `std::map<data_t, uint32_t>` (the `data_map_t` of disk.h) is an association
  list kept strictly sorted by the key under the lexicographic byte-string
  order, which is exactly the iteration order of the `std::map`;
* fixed-size C arrays together with their fill counters (`sectors[MAX_SECS]`
  with `num_sectors`) are Lean lists holding the meaningful prefix;
* the 256 x 2 track grid of `disk_t` is a flat list of 512 tracks, row-major,
  slot `cyl * 2 + head`;
* `die(...)` and failed `assert(...)` both abort the process; both are
  modelled as `Except.error` with the corresponding message;
* bit operations on bytes are written arithmetically: `x & 3` is `x % 4`,
  `x & 0x80` is `x / 128 % 2`, and `a | b` on operands with disjoint bit
  ranges is `a + b`.
-/

set_option maxRecDepth 8000

namespace Dumpfloppy

/-- Data bytes content of a particular sector read (`data_t` in disk.h). -/
abbrev Data := List Nat

/-- `UINT32_MAX`. -/
def UINT32MAX : Nat := 4294967295

/-- Lexicographic strict order on byte strings: the comparator used by
`std::map<data_t, uint32_t>` (default `std::less` on
`std::basic_string<uint8_t>`). -/
def dataLt : Data → Data → Bool
  | [],      []      => false
  | [],      _ :: _  => true
  | _ :: _,  []      => false
  | a :: as, b :: bs => if a < b then true else if b < a then false else dataLt as bs

/-- `data_map_t`: association list in strictly increasing key order, the
canonical representation of a `std::map<data_t, uint32_t>`. -/
abbrev DataMap := List (Data × Nat)

/-- `std::map::insert`: insert a key/value pair keeping the sorted order;
returns the new map and whether insertion took place (`false` means the key
was already present and the map is unchanged). -/
def mapInsert (m : DataMap) (k : Data) (v : Nat) : DataMap × Bool :=
  match m with
  | [] => ([(k, v)], true)
  | (k0, v0) :: rest =>
    if dataLt k k0 then ((k, v) :: (k0, v0) :: rest, true)
    else if dataLt k0 k then
      let r := mapInsert rest k v
      ((k0, v0) :: r.1, r.2)
    else ((k0, v0) :: rest, false)

/-- `std::map::find`: the value stored at a key, if present. -/
def mapFind (m : DataMap) (k : Data) : Option Nat :=
  match m with
  | [] => none
  | (k0, v0) :: rest => if dataLt k k0 then none
    else if dataLt k0 k then mapFind rest k
    else some v0

/-- Overwrite the value stored at a key (the effect of writing through a
dereferenced `std::map` iterator). -/
def mapSet (m : DataMap) (k : Data) (v : Nat) : DataMap :=
  match m with
  | [] => []
  | (k0, v0) :: rest => if dataLt k k0 then (k0, v0) :: rest
    else if dataLt k0 k then (k0, v0) :: mapSet rest k v
    else (k0, v) :: rest

/-- Keys of the map are strictly increasing (the `std::map` representation
invariant). -/
def sortedKeys : DataMap → Bool
  | [] => true
  | [_] => true
  | (k0, _) :: (k1, v1) :: rest => dataLt k0 k1 && sortedKeys ((k1, v1) :: rest)

section DataLtLemmas

theorem dataLt_irrefl (a : Data) : dataLt a a = false := by
  induction a with
  | nil => rfl
  | cons x xs ih => simp [dataLt, ih]

theorem dataLt_asymm {a b : Data} (h : dataLt a b = true) : dataLt b a = false := by
  induction a generalizing b with
  | nil => cases b with
    | nil => simpa [dataLt] using h
    | cons y ys => simp [dataLt]
  | cons x xs ih =>
    cases b with
    | nil => simp [dataLt] at h
    | cons y ys =>
      simp only [dataLt] at h ⊢
      rcases Nat.lt_trichotomy x y with hxy | hxy | hxy
      · simp [hxy, Nat.lt_asymm hxy]
      · subst hxy
        simp only [Nat.lt_irrefl, if_false] at h ⊢
        exact ih h
      · simp [hxy, Nat.lt_asymm hxy] at h

theorem dataLt_trichotomy (a b : Data) :
    dataLt a b = true ∨ a = b ∨ dataLt b a = true := by
  induction a generalizing b with
  | nil => cases b with
    | nil => exact Or.inr (Or.inl rfl)
    | cons y ys => exact Or.inl (by simp [dataLt])
  | cons x xs ih =>
    cases b with
    | nil => exact Or.inr (Or.inr (by simp [dataLt]))
    | cons y ys =>
      rcases Nat.lt_trichotomy x y with hxy | hxy | hxy
      · exact Or.inl (by simp [dataLt, hxy])
      · subst hxy
        rcases ih ys with h | h | h
        · exact Or.inl (by simp [dataLt, h])
        · exact Or.inr (Or.inl (by rw [h]))
        · exact Or.inr (Or.inr (by simp [dataLt, h]))
      · exact Or.inr (Or.inr (by simp [dataLt, hxy, Nat.lt_asymm hxy]))

theorem dataLt_of_ne_of_not_lt {a b : Data} (hne : a ≠ b)
    (h : dataLt a b = false) : dataLt b a = true := by
  rcases dataLt_trichotomy a b with h1 | h1 | h1
  · rw [h1] at h; cases h
  · exact absurd h1 hne
  · exact h1

end DataLtLemmas

section MapLemmas

/-- All keys of `m` are strictly below `k`. -/
def allBelow (m : DataMap) (k : Data) : Bool :=
  m.all (fun e => dataLt e.1 k)

theorem mapInsert_append {m : DataMap} {k : Data} {v : Nat}
    (h : allBelow m k = true) : mapInsert m k v = (m ++ [(k, v)], true) := by
  induction m with
  | nil => rfl
  | cons e rest ih =>
    obtain ⟨k0, v0⟩ := e
    simp only [allBelow, List.all_cons, Bool.and_eq_true] at h
    have hk0 : dataLt k0 k = true := h.1
    have hk : dataLt k k0 = false := dataLt_asymm hk0
    have ihr := ih (by simpa [allBelow] using h.2)
    simp [mapInsert, hk, hk0, ihr]

theorem sortedKeys_append_singleton {m : DataMap} {k : Data} {v : Nat}
    (hs : sortedKeys m = true) (hb : allBelow m k = true) :
    sortedKeys (m ++ [(k, v)]) = true := by
  induction m with
  | nil => rfl
  | cons e rest ih =>
    obtain ⟨k0, v0⟩ := e
    cases rest with
    | nil =>
      simp only [allBelow, List.all_cons, List.all_nil, Bool.and_true] at hb
      simpa [sortedKeys] using hb
    | cons e1 rest1 =>
      obtain ⟨k1, v1⟩ := e1
      simp only [sortedKeys, Bool.and_eq_true] at hs
      simp only [allBelow, List.all_cons, Bool.and_eq_true] at hb
      have := ih hs.2 (by simp [allBelow, hb.2.1, hb.2.2])
      simp only [List.cons_append] at this ⊢
      simp only [sortedKeys, Bool.and_eq_true, List.append_eq]
      refine ⟨hs.1, ?_⟩
      simpa [List.append_eq] using this

theorem allBelow_append_singleton {m : DataMap} {k k2 : Data} {v : Nat}
    (hm : allBelow m k2 = true) (hk : dataLt k k2 = true) :
    allBelow (m ++ [(k, v)]) k2 = true := by
  simp only [allBelow, List.all_append, List.all_cons, List.all_nil,
    Bool.and_eq_true] at hm ⊢
  simp [hm, hk]

theorem dataLt_trans {a b c : Data} (h1 : dataLt a b = true)
    (h2 : dataLt b c = true) : dataLt a c = true := by
  induction a generalizing b c with
  | nil =>
    cases c with
    | nil =>
      cases b with
      | nil => simpa [dataLt] using h1
      | cons y ys => simp [dataLt] at h2
    | cons z zs => simp [dataLt]
  | cons x xs ih =>
    cases b with
    | nil => simp [dataLt] at h1
    | cons y ys =>
      cases c with
      | nil => simp [dataLt] at h2
      | cons z zs =>
        simp only [dataLt] at h1 h2 ⊢
        rcases Nat.lt_trichotomy x y with hxy | hxy | hxy
        · rcases Nat.lt_trichotomy y z with hyz | hyz | hyz
          · simp [Nat.lt_trans hxy hyz]
          · subst hyz; simp [hxy]
          · simp [hyz, Nat.lt_asymm hyz] at h2
        · subst hxy
          simp only [Nat.lt_irrefl, if_false] at h1
          rcases Nat.lt_trichotomy x z with hyz | hyz | hyz
          · simp [hyz]
          · subst hyz
            simp only [Nat.lt_irrefl, if_false] at h2 ⊢
            exact ih h1 h2
          · simp [hyz, Nat.lt_asymm hyz] at h2
        · simp [hxy, Nat.lt_asymm hxy] at h1

/-- In a sorted map, the head key is strictly below every tail key. -/
theorem sortedKeys_head_below {e : Data × Nat} {rest : DataMap}
    (hs : sortedKeys (e :: rest) = true) :
    ∀ f ∈ rest, dataLt e.1 f.1 = true := by
  induction rest generalizing e with
  | nil => intro f hf; cases hf
  | cons e1 rest1 ih =>
    intro f hf
    obtain ⟨k0, v0⟩ := e
    obtain ⟨k1, v1⟩ := e1
    simp only [sortedKeys, Bool.and_eq_true] at hs
    rcases List.mem_cons.mp hf with hf1 | hf1
    · subst hf1; exact hs.1
    · exact dataLt_trans hs.1 (ih hs.2 f hf1)

theorem sortedKeys_tail {e : Data × Nat} {rest : DataMap}
    (hs : sortedKeys (e :: rest) = true) : sortedKeys rest = true := by
  cases rest with
  | nil => rfl
  | cons e1 rest1 =>
    obtain ⟨k0, v0⟩ := e
    obtain ⟨k1, v1⟩ := e1
    simp only [sortedKeys, Bool.and_eq_true] at hs
    exact hs.2

theorem sortedKeys_pair_distinct {m : DataMap} (hs : sortedKeys m = true) :
    m.Pairwise (fun a b => a.1 ≠ b.1) := by
  induction m with
  | nil => exact List.Pairwise.nil
  | cons e rest ih =>
    refine List.Pairwise.cons ?_ (ih (sortedKeys_tail hs))
    intro f hf hne
    have hlt := sortedKeys_head_below hs f hf
    rw [hne] at hlt
    rw [dataLt_irrefl] at hlt
    cases hlt

/-- Every element of an insertion result was in the map or is the new pair. -/
theorem mapInsert_mem {m : DataMap} {k : Data} {v : Nat} {f : Data × Nat}
    (hf : f ∈ (mapInsert m k v).1) : f ∈ m ∨ f = (k, v) := by
  induction m with
  | nil =>
    simp only [mapInsert, List.mem_singleton] at hf
    exact Or.inr hf
  | cons e1 rest1 ih1 =>
    obtain ⟨k1, v1⟩ := e1
    simp only [mapInsert] at hf
    by_cases g1 : dataLt k k1 = true
    · simp only [g1, if_true, List.mem_cons] at hf
      rcases hf with h | h | h
      · exact Or.inr h
      · exact Or.inl (by simp [h])
      · exact Or.inl (List.mem_cons_of_mem _ h)
    · rw [Bool.not_eq_true] at g1
      by_cases g2 : dataLt k1 k = true
      · simp only [g1, g2, if_true, if_false, Bool.false_eq_true,
          List.mem_cons] at hf
        rcases hf with h | h
        · exact Or.inl (by simp [h])
        · rcases ih1 h with h2 | h2
          · exact Or.inl (List.mem_cons_of_mem _ h2)
          · exact Or.inr h2
      · rw [Bool.not_eq_true] at g2
        simp only [g1, g2, Bool.false_eq_true, if_false, List.mem_cons] at hf
        rcases hf with h | h
        · exact Or.inl (by simp [h])
        · exact Or.inl (List.mem_cons_of_mem _ h)

/-- `mapInsert` preserves the sorted-keys invariant. -/
theorem mapInsert_sorted {m : DataMap} {k : Data} {v : Nat}
    (hs : sortedKeys m = true) : sortedKeys (mapInsert m k v).1 = true := by
  induction m with
  | nil => rfl
  | cons e rest ih =>
    obtain ⟨k0, v0⟩ := e
    by_cases h1 : dataLt k k0 = true
    · -- new least element
      simp only [mapInsert, h1, if_true]
      simpa [sortedKeys, h1] using hs
    · rw [Bool.not_eq_true] at h1
      by_cases h2 : dataLt k0 k = true
      · have htail := ih (sortedKeys_tail hs)
        simp only [mapInsert, h1, h2, if_true, if_false, Bool.false_eq_true]
        -- head is below everything in the inserted tail
        have hbelow : ∀ f ∈ (mapInsert rest k v).1, dataLt k0 f.1 = true := by
          intro f hf
          rcases mapInsert_mem hf with h | h
          · exact sortedKeys_head_below hs f h
          · rw [h]; exact h2
        -- rebuild sortedness of the cons
        cases hr : (mapInsert rest k v).1 with
        | nil => rfl
        | cons w ws =>
          have hw : dataLt k0 w.1 = true := by
            apply hbelow; rw [hr]; exact List.mem_cons_self _ _
          have : sortedKeys (w :: ws) = true := by rw [← hr]; exact htail
          obtain ⟨kw, vw⟩ := w
          cases ws with
          | nil => simpa [sortedKeys] using hw
          | cons u us =>
            simp only [sortedKeys, Bool.and_eq_true] at this ⊢
            exact ⟨hw, this⟩
      · rw [Bool.not_eq_true] at h2
        simp only [mapInsert, h1, h2, Bool.false_eq_true, if_false]
        exact hs

end MapLemmas

/-! ## The disk data model (disk.h / disk.cpp) -/

/-- `sector_status_t`. -/
inductive SectorStatus
  | missing
  | bad
  | good
deriving DecidableEq, Repr

/-- `track_status_t`. -/
inductive TrackStatus
  | unknown
  | guessed
  | probed
deriving DecidableEq, Repr

/-- `sector_t`.  `datas` maps a full-sector byte string to the number of times
that data was read. -/
structure Sector where
  status : SectorStatus
  log_cyl : Nat
  log_head : Nat
  log_sector : Nat
  deleted : Bool
  datas : DataMap
deriving DecidableEq, Repr

/-- `track_t`.  `data_mode` holds the `imd_mode` byte of the mode table entry
the C code points at; `sectors` holds the meaningful prefix
`sectors[0..num_sectors)`, so `num_sectors` is `sectors.length`. -/
structure Track where
  status : TrackStatus
  data_mode : Nat
  phys_cyl : Nat
  phys_head : Nat
  sector_size_code : Nat
  sectors : List Sector
deriving DecidableEq, Repr

/-- `disk_t`.  `tracks` is the 256 x 2 grid, row-major, slot `cyl * 2 + head`. -/
structure Disk where
  comment : List Nat
  num_phys_cyls : Nat
  num_phys_heads : Nat
  tracks : List Track
deriving DecidableEq, Repr

/-- `sector_bytes`: `128 << code`. -/
def sector_bytes (code : Nat) : Nat := 128 <<< code

/-- The `imd_mode` bytes of the `DATA_MODES` table, in probe order
(MFM-250k, FM-250k, MFM-300k, FM-300k, MFM-500k, FM-500k, MFM-1000k). -/
def DATA_MODES : List Nat := [5, 2, 4, 1, 3, 0, 6]

/-- `init_sector`. -/
def init_sector : Sector :=
  { status := .missing, log_cyl := 255, log_head := 255, log_sector := 255,
    deleted := false, datas := [] }

/-- `init_track` (the `sectors` array is all `init_sector`, i.e. an empty
meaningful prefix; `sector_size_code` is the `UCHAR_MAX` sentinel). -/
def init_track (phys_cyl phys_head : Nat) : Track :=
  { status := .unknown, data_mode := 0, phys_cyl, phys_head,
    sector_size_code := 255, sectors := [] }

/-- `init_disk`. -/
def init_disk : Disk :=
  { comment := [], num_phys_cyls := 0, num_phys_heads := 0,
    tracks := (List.range 512).map (fun i => init_track (i / 2) (i % 2)) }

/-- Fetch the track at `tracks[cyl][head]`. -/
def getTrack (d : Disk) (cyl head : Nat) : Track :=
  d.tracks.getD (cyl * 2 + head) (init_track 0 0)

/-- Store the track at `tracks[cyl][head]`. -/
def setTrack (d : Disk) (cyl head : Nat) (t : Track) : Disk :=
  { d with tracks := d.tracks.set (cyl * 2 + head) t }

/-- `same_sector_addr`. -/
def same_sector_addr (a b : Sector) : Bool :=
  if a.log_cyl ≠ b.log_cyl then false
  else if a.log_head ≠ b.log_head then false
  else if a.log_sector ≠ b.log_sector then false
  else true

/-! ## Byte-stream primitives -/

/-- Read exactly `n` bytes from the stream (an `fread` that either fills the
buffer or reports a short read). -/
def readBytes (n : Nat) (s : List Nat) : Option (List Nat × List Nat) :=
  if n ≤ s.length then some (s.take n, s.drop n) else none

/-- A `uint32` in network byte order, as written by `htonl` + `fwrite`. -/
def natToBE4 (n : Nat) : List Nat :=
  [n / 16777216 % 256, n / 65536 % 256, n / 256 % 256, n % 256]

/-- The value of 4 bytes read in network byte order (`ntohl`). -/
def be4Value (b : List Nat) : Nat :=
  match b with
  | [b0, b1, b2, b3] => ((b0 * 256 + b1) * 256 + b2) * 256 + b3
  | _ => 0

theorem readBytes_exact {xs rest : List Nat} {n : Nat} (h : xs.length = n) :
    readBytes n (xs ++ rest) = some (xs, rest) := by
  subst h
  simp [readBytes, List.take_append, List.drop_append]

theorem be4_natToBE4 {n : Nat} (h : n < 4294967296) :
    be4Value (natToBE4 n) = n := by
  simp only [natToBE4, be4Value]
  omega

theorem natToBE4_length (n : Nat) : (natToBE4 n).length = 4 := rfl

/-! ## The IMD reader (imd.cpp, `read_imd_track` / `read_imd`) -/

mutual

/-- The Sector Data Record chain of one sector: a faithful transliteration of
the `while (have_data_to_read)` loop of `read_imd_track` (imd.cpp).  The flag
byte is decoded by the fixed subtraction sequence
`-0x01` (DATA), then `0x10` HAS-DATA-COUNT, `0x08` ANOTHER-DATA-FOLLOWS,
`0x04` IS-ERROR (first record only), `0x02` IS-DELETED (first record only),
`0x01` IS-COMPRESSED; a nonzero residue is fatal.  `fuel` only bounds the
recursion; each iteration consumes at least one byte, so `s.length + 1` always
suffices. -/
def readSDRs (sector_size : Nat) :
    Nat → Bool → Sector → List Nat → Except String (Sector × List Nat)
  | 0, _, _, _ => .error "out of fuel"
  | fuel + 1, first_read, sector, s =>
    match s with
    | [] => .error "Couldn't read IMD sector header"
    | type0 :: s =>
      if type0 = 0 then
        -- no data record: the loop body is skipped and the loop exits
        .ok (sector, s)
      else
        -- type -= IMD_SDR_DATA
        let t1 := type0 - 1
        -- if (type >= IMD_SDR_HAS_DATA_COUNT)
        let hasCount := 16 ≤ t1
        let t2 := if hasCount then t1 - 16 else t1
        let countRead : Except String (Nat × List Nat) :=
          if hasCount then
            match readBytes 4 s with
            | none => .error "Couldn't read IMD data count"
            | some (cb, s2) =>
              if 1 < be4Value cb then .ok (be4Value cb, s2)
              else .error "assert failed: count > 1"
          else .ok (1, s)
        match countRead with
        | .error e => .error e
        | .ok (count, s) =>
          -- if (type >= IMD_SDR_ANOTHER_DATA_FOLLOWS)
          let another := 8 ≤ t2
          let t3 := if another then t2 - 8 else t2
          -- IMD_SDR_IS_ERROR: on the first record it selects BAD/GOOD,
          -- afterwards it is asserted absent
          if first_read then
            let isError := 4 ≤ t3
            let t4 := if isError then t3 - 4 else t3
            let status : SectorStatus := if isError then .bad else .good
            let isDeleted := 2 ≤ t4
            let t5 := if isDeleted then t4 - 2 else t4
            readSDRsTail sector_size fuel sector s count another status
              (sector.deleted || isDeleted) t5
          else
            if 4 ≤ t3 then .error "assert failed: type < IMD_SDR_IS_ERROR"
            else if 2 ≤ t3 then .error "assert failed: type < IMD_SDR_IS_DELETED"
            else
              readSDRsTail sector_size fuel sector s count another
                sector.status sector.deleted t3

/-- The tail of one loop iteration of the SDR chain: the IS-COMPRESSED test,
the payload read, the `datas.insert`, the residual-flag check, and the
decision whether another record follows. -/
def readSDRsTail (sector_size fuel : Nat) (sector : Sector) (s : List Nat)
    (count : Nat) (another : Bool) (status : SectorStatus) (deleted : Bool)
    (t5 : Nat) : Except String (Sector × List Nat) :=
  let isCompressed := 1 ≤ t5
  let t6 := if isCompressed then t5 - 1 else t5
  let dataRead : Except String (Data × List Nat) :=
    if isCompressed then
      match s with
      | [] => .error "Couldn't read IMD compressed sector data"
      | fill :: s2 => .ok (List.replicate sector_size fill, s2)
    else
      match readBytes sector_size s with
      | none => .error "Couldn't read IMD sector data"
      | some (buf, s2) => .ok (buf, s2)
  match dataRead with
  | .error e => .error e
  | .ok (this_data, s) =>
    let ins := mapInsert sector.datas this_data count
    if ins.2 = false then .error "unexpected duplicate data"
    else if t6 ≠ 0 then .error "IMD sector has unsupported flags"
    else
      let sector2 : Sector := { sector with status, deleted, datas := ins.1 }
      if another then readSDRs sector_size fuel false sector2 s
      else .ok (sector2, s)

end

/-- Zip three lists into triples (stopping at the shortest). -/
def zip3 {α β γ : Type} : List α → List β → List γ → List (α × β × γ)
  | a :: as, b :: bs, c :: cs => (a, b, c) :: zip3 as bs cs
  | _, _, _ => []

/-- The per-sector loop of `read_imd_track`: for each physical sector, check
`assert(sector->status == SECTOR_MISSING)` against the slot being overwritten,
initialize the logical address from the three maps, and read the SDR chain.
The triples are `(sec_map, cyl_map, head_map)` entries. -/
def readSectors (sector_size : Nat) (old : List Sector) :
    List (Nat × Nat × Nat) → List Nat → Nat →
    Except String (List Sector × List Nat)
  | [], s, _ => .ok ([], s)
  | (sec_id, lc, lh) :: maps, s, i =>
    if (old.getD i init_sector).status ≠ .missing then
      .error "assert failed: sector->status == SECTOR_MISSING"
    else
      let base : Sector :=
        { status := .missing, log_cyl := lc, log_head := lh,
          log_sector := sec_id, deleted := false, datas := [] }
      match readSDRs sector_size (s.length + 1) true base s with
      | .error e => .error e
      | .ok (sec, s2) =>
        match readSectors sector_size old maps s2 (i + 1) with
        | .error e => .error e
        | .ok (secs, s3) => .ok (sec :: secs, s3)

/-- Read an optional map block: `fread` it when the header flag is set, else
`memset` the default value (`read_imd_track`). -/
def readMapBlock (flagSet : Bool) (n dfl : Nat) (s : List Nat) (msg : String) :
    Except String (List Nat × List Nat) :=
  if flagSet then
    match readBytes n s with
    | none => .error msg
    | some r => .ok r
  else .ok (List.replicate n dfl, s)

/-- `read_imd_track` (imd.cpp): read one track record and place it in the
disk.  `.ok none` is the EOF return (`return false` in C). -/
def read_imd_track (d : Disk) (s : List Nat) :
    Except String (Option (Disk × List Nat)) :=
  match s with
  | [] => .ok none
  | _ :: _ =>
    match readBytes 5 s with
    | none => .error "Couldn't read IMD track header"
    | some (hd, s) =>
      match hd with
      | [h0, h1, h2, h3, h4] =>
        let phys_cyl := h1
        if 256 ≤ phys_cyl then .error "IMD track cylinder value too large"
        else
        let d := if d.num_phys_cyls ≤ phys_cyl then
          { d with num_phys_cyls := phys_cyl + 1 } else d
        -- (header[2] & ~IMD_ALL_FLAGS) != 0, i.e. bits 2..5 of the byte
        if h2 / 4 % 16 ≠ 0 then .error "IMD track has unsupported flags"
        else
        let phys_head := h2 % 4   -- header[2] & IMD_HEAD_MASK
        if 2 ≤ phys_head then .error "IMD track head value too large"
        else
        let d := if d.num_phys_heads ≤ phys_head then
          { d with num_phys_heads := phys_head + 1 } else d
        -- the DATA_MODES lookup loop; we record the matching imd_mode byte
        if DATA_MODES.contains h0 = false then .error "IMD track mode unknown"
        else
        let old := getTrack d phys_cyl phys_head
        let num_sectors := h3
        let sector_size_code := h4
        if num_sectors = 0 then
          -- nothing else to do (a completely unreadable track)
          .ok (some (setTrack d phys_cyl phys_head
            { status := .probed, data_mode := h0, phys_cyl, phys_head,
              sector_size_code, sectors := [] }, s))
        else if sector_size_code = 255 then
          .error "IMD variable sector size extension not supported"
        else
          let sector_size := sector_bytes sector_size_code
          match readBytes num_sectors s with
          | none => .error "Couldn't read IMD sector map"
          | some (sec_map, s) =>
            match readMapBlock (h2 / 128 % 2 = 1) num_sectors phys_cyl s
                "Couldn't read IMD cylinder map" with
            | .error e => .error e
            | .ok (cyl_map, s) =>
              match readMapBlock (h2 / 64 % 2 = 1) num_sectors phys_head s
                  "Couldn't read IMD head map" with
              | .error e => .error e
              | .ok (head_map, s) =>
                match readSectors sector_size old.sectors
                    (zip3 sec_map cyl_map head_map) s 0 with
                | .error e => .error e
                | .ok (secs, s) =>
                  .ok (some (setTrack d phys_cyl phys_head
                    { status := .probed, data_mode := h0, phys_cyl, phys_head,
                      sector_size_code, sectors := secs }, s))
      | _ => .error "internal: readBytes 5 did not return 5 bytes"

/-- `getdelim` on `IMD_END_OF_COMMENT` (`0x1A`): the bytes before the first
delimiter, and the rest of the stream.  `none` when there is no delimiter. -/
def splitComment : List Nat → Option (List Nat × List Nat)
  | [] => none
  | b :: r =>
    if b = 26 then some ([], r)
    else match splitComment r with
      | none => none
      | some (c, rest) => some (b :: c, rest)

/-- The `while (read_imd_track(...))` loop of `read_imd`. -/
def read_imd_tracks : Nat → Disk → List Nat → Except String Disk
  | 0, _, _ => .error "out of fuel"
  | fuel + 1, d, s =>
    match read_imd_track d s with
    | .error e => .error e
    | .ok none => .ok d
    | .ok (some (d2, s2)) => read_imd_tracks fuel d2 s2

/-- `read_imd` (imd.cpp): initialize the disk, read the comment up to `0x1A`,
then read track records until EOF. -/
def read_imd (s : List Nat) : Except String Disk :=
  match splitComment s with
  | none => .error "Couldn't find IMD comment delimiter"
  | some (com, rest) =>
    read_imd_tracks (rest.length + 1) { init_disk with comment := com } rest

/-! ## The IMD writer (imd.cpp, `write_imd_header` / `write_imd_track`) -/

/-- The first SDR type byte contribution of the sector status
(`switch (sector->status)` in `write_imd_track`): `0` for MISSING,
`IMD_SDR_DATA + IMD_SDR_IS_ERROR = 5` for BAD, `IMD_SDR_DATA = 1` for GOOD. -/
def statusType : SectorStatus → Nat
  | .missing => 0
  | .bad => 5
  | .good => 1

/-- Every byte of the read equals the first byte (the can-compress scan). -/
def allSame (dat : Data) : Bool :=
  dat.all (fun b => b = dat.getD 0 0)

/-- The per-`datas`-entry loop of `write_imd_track`: one SDR per entry in map
order; `HAS_DATA_COUNT` when the count exceeds 1, `ANOTHER_DATA_FOLLOWS` on
all but the last, `IS_COMPRESSED` when all payload bytes are identical; after
the first record the type base resets to `IMD_SDR_DATA`. -/
def write_sdr_chain (sector_size : Nat) : Nat → DataMap → Except String (List Nat)
  | _, [] => .ok []
  | tbase, (dat, cnt) :: rest =>
    -- assert(iter->first.length() == sector_bytes(track->sector_size_code))
    if dat.length ≠ sector_size then
      .error "assert failed: data length == sector_bytes"
    else
      let t1 := tbase + (if 1 < cnt then 16 else 0) +
        (if rest.isEmpty then 0 else 8)
      let comp := allSame dat
      let t2 := if comp then t1 + 1 else t1
      let countBytes := if 1 < cnt then natToBE4 cnt else []
      let payload := if comp then [dat.getD 0 0] else dat
      match write_sdr_chain sector_size 1 rest with
      | .error e => .error e
      | .ok tail => .ok (t2 :: (countBytes ++ payload ++ tail))

/-- The per-sector loop of `write_imd_track`: status/deleted asserts and type
base, then the SDR chain (or a lone `0x00` type byte for an empty sector). -/
def write_sdr_all (size_code : Nat) : List Sector → Except String (List Nat)
  | [] => .ok []
  | sec :: rest =>
    if sec.datas.isEmpty ≠ (sec.status == SectorStatus.missing) then
      .error "assert failed: datas.empty() == (status == SECTOR_MISSING)"
    else
      let t0 := statusType sec.status
      if sec.deleted && sec.datas.isEmpty then
        .error "assert failed: !sector->datas.empty()"
      else
        let t1 := if sec.deleted then t0 + 2 else t0
        let chain : Except String (List Nat) :=
          if sec.datas.isEmpty then .ok [t1]
          else write_sdr_chain (sector_bytes size_code) t1 sec.datas
        match chain with
        | .error e => .error e
        | .ok bytes =>
          match write_sdr_all size_code rest with
          | .error e => .error e
          | .ok tail => .ok (bytes ++ tail)

/-- `write_imd_track` (imd.cpp): 5-byte header, sector-ID map, optional
cylinder and head maps, then the SDRs.  The header flag byte is
`flags | phys_head` with disjoint bit ranges, written as a sum. -/
def write_imd_track (t : Track) : Except String (List Nat) :=
  let sec_map := t.sectors.map (fun sec => sec.log_sector)
  let cyl_map := t.sectors.map (fun sec => sec.log_cyl)
  let head_map := t.sectors.map (fun sec => sec.log_head)
  let needCyl := t.sectors.any (fun sec => sec.log_cyl ≠ t.phys_cyl)
  let needHead := t.sectors.any (fun sec => sec.log_head ≠ t.phys_head)
  let h2 := (if needCyl then 128 else 0) + (if needHead then 64 else 0)
    + t.phys_head
  let header := [t.data_mode, t.phys_cyl, h2, t.sectors.length,
    t.sector_size_code]
  match write_sdr_all t.sector_size_code t.sectors with
  | .error e => .error e
  | .ok body =>
    .ok (header ++ sec_map ++ (if needCyl then cyl_map else []) ++
      (if needHead then head_map else []) ++ body)

/-- The physical (cylinder, head) pairs acquisition writes, in row-major
order (the track loop of `process_floppy`, dumpfloppy.cpp). -/
def regionPairs (numCyls numHeads : Nat) : List (Nat × Nat) :=
  (List.range numCyls).bind (fun c =>
    (List.range numHeads).map (fun h => (c, h)))

/-- The track records of all tracks acquisition writes, concatenated. -/
def write_tracks (d : Disk) : List (Nat × Nat) → Except String (List Nat)
  | [] => .ok []
  | (c, h) :: ps =>
    match write_imd_track (getTrack d c h) with
    | .error e => .error e
    | .ok bytes =>
      match write_tracks d ps with
      | .error e => .error e
      | .ok tail => .ok (bytes ++ tail)

/-- The byte stream acquisition produces for a disk model:
`write_imd_header` (comment then `0x1A`) followed by `write_imd_track` for
every `(cyl, head)` of the geometry in row-major order. -/
def write_imd (d : Disk) : Except String (List Nat) :=
  match write_tracks d (regionPairs d.num_phys_cyls d.num_phys_heads) with
  | .error e => .error e
  | .ok body => .ok (d.comment ++ (26 :: body))

/-! ## Round-trip lemmas for the SDR chain -/

theorem allSame_replicate {dat : Data} {n : Nat} (h : allSame dat = true)
    (hl : dat.length = n) : List.replicate n (dat.getD 0 0) = dat := by
  symm
  rw [List.eq_replicate]
  refine ⟨hl, fun b hb => ?_⟩
  have h3 : ∀ x ∈ dat, decide (x = dat.getD 0 0) = true :=
    List.all_eq_true.mp (by simpa [allSame] using h)
  exact of_decide_eq_true (h3 b hb)

/-- `allSame_replicate` in the `getElem?` normal form that `simp` produces. -/
theorem allSame_replicate2 {dat : Data} {n : Nat} (h : allSame dat = true)
    (hl : dat.length = n) : List.replicate n (dat[0]?.getD 0) = dat := by
  have h2 := allSame_replicate h hl
  simpa [List.getD] using h2

/-- Reading back one encoded Sector Data Record, first-record form: the type
byte carries the status and deleted flags; the record is followed by the rest
of the stream. -/
theorem readSDRs_record_first
    (size fuel : Nat) (st : SectorStatus) (hst : st ≠ .missing)
    (del : Bool) (cnt : Nat) (h1 : 1 ≤ cnt) (h2 : cnt < 4294967296)
    (dat : Data) (hlen : dat.length = size)
    (another : Bool) (fr : Sector) (rest : List Nat) :
    readSDRs size (fuel + 1) true fr
      ((statusType st + (if del then 2 else 0) + (if 1 < cnt then 16 else 0) +
        (if another then 8 else 0) + (if allSame dat then 1 else 0)) ::
       ((if 1 < cnt then natToBE4 cnt else []) ++
        ((if allSame dat then [dat.getD 0 0] else dat) ++ rest))) =
      (let ins := mapInsert fr.datas dat cnt
       if ins.2 = false then .error "unexpected duplicate data"
       else
         let sec2 : Sector :=
           { fr with
             status := st, deleted := fr.deleted || del,
             datas := ins.1 }
         if another then readSDRs size fuel false sec2 rest
         else .ok (sec2, rest)) := by
  by_cases hc : 1 < cnt
  · cases st with
    | missing => exact absurd rfl hst
    | bad =>
      cases del <;> cases another <;> cases hcomp : allSame dat <;>
        first
        | simp [readSDRs, readSDRsTail.eq_def, statusType, hc, hcomp,
            readBytes_exact (natToBE4_length cnt),
            readBytes_exact hlen, be4_natToBE4 h2, allSame_replicate2 hcomp hlen]
        | simp [readSDRs, readSDRsTail.eq_def, statusType, hc, hcomp,
            readBytes_exact (natToBE4_length cnt),
            readBytes_exact hlen, be4_natToBE4 h2]
    | good =>
      cases del <;> cases another <;> cases hcomp : allSame dat <;>
        first
        | simp [readSDRs, readSDRsTail.eq_def, statusType, hc, hcomp,
            readBytes_exact (natToBE4_length cnt),
            readBytes_exact hlen, be4_natToBE4 h2, allSame_replicate2 hcomp hlen]
        | simp [readSDRs, readSDRsTail.eq_def, statusType, hc, hcomp,
            readBytes_exact (natToBE4_length cnt),
            readBytes_exact hlen, be4_natToBE4 h2]
  · have hcnt1 : cnt = 1 := by omega
    subst hcnt1
    cases st with
    | missing => exact absurd rfl hst
    | bad =>
      cases del <;> cases another <;> cases hcomp : allSame dat <;>
        first
        | simp [readSDRs, readSDRsTail.eq_def, statusType, hcomp,
            readBytes_exact hlen, allSame_replicate2 hcomp hlen]
        | simp [readSDRs, readSDRsTail.eq_def, statusType, hcomp,
            readBytes_exact hlen]
    | good =>
      cases del <;> cases another <;> cases hcomp : allSame dat <;>
        first
        | simp [readSDRs, readSDRsTail.eq_def, statusType, hcomp,
            readBytes_exact hlen, allSame_replicate2 hcomp hlen]
        | simp [readSDRs, readSDRsTail.eq_def, statusType, hcomp,
            readBytes_exact hlen]

/-- Reading back one encoded Sector Data Record in non-first position: the
type base is `IMD_SDR_DATA` alone; status and deleted are untouched. -/
theorem readSDRs_record_rest
    (size fuel : Nat) (cnt : Nat) (h1 : 1 ≤ cnt) (h2 : cnt < 4294967296)
    (dat : Data) (hlen : dat.length = size)
    (another : Bool) (sec : Sector) (rest : List Nat) :
    readSDRs size (fuel + 1) false sec
      ((1 + (if 1 < cnt then 16 else 0) +
        (if another then 8 else 0) + (if allSame dat then 1 else 0)) ::
       ((if 1 < cnt then natToBE4 cnt else []) ++
        ((if allSame dat then [dat.getD 0 0] else dat) ++ rest))) =
      (let ins := mapInsert sec.datas dat cnt
       if ins.2 = false then .error "unexpected duplicate data"
       else
         let sec2 : Sector := { sec with datas := ins.1 }
         if another then readSDRs size fuel false sec2 rest
         else .ok (sec2, rest)) := by
  by_cases hc : 1 < cnt
  · cases another <;> cases hcomp : allSame dat <;>
      first
      | simp [readSDRs, readSDRsTail.eq_def, hc, hcomp,
          readBytes_exact (natToBE4_length cnt),
          readBytes_exact hlen, be4_natToBE4 h2, allSame_replicate2 hcomp hlen]
      | simp [readSDRs, readSDRsTail.eq_def, hc, hcomp,
          readBytes_exact (natToBE4_length cnt),
          readBytes_exact hlen, be4_natToBE4 h2]
  · have hcnt1 : cnt = 1 := by omega
    subst hcnt1
    cases another <;> cases hcomp : allSame dat <;>
      first
      | simp [readSDRs, readSDRsTail.eq_def, hcomp,
          readBytes_exact hlen, allSame_replicate2 hcomp hlen]
      | simp [readSDRs, readSDRsTail.eq_def, hcomp,
          readBytes_exact hlen]

/-- In `sortedKeys (m ++ (k, v) :: tl)`, every key of `m` is below `k`. -/
theorem sortedKeys_append_allBelow {m tl : DataMap} {k : Data} {v : Nat}
    (h : sortedKeys (m ++ (k, v) :: tl) = true) : allBelow m k = true := by
  induction m with
  | nil => rfl
  | cons e rest ih =>
    have hb := sortedKeys_head_below (by simpa using h) (k, v)
      (by simp [List.mem_append])
    have ht : sortedKeys (rest ++ (k, v) :: tl) = true :=
      sortedKeys_tail (by simpa using h)
    simp only [allBelow, List.all_cons, Bool.and_eq_true]
    exact ⟨hb, ih ht⟩

/-- The byte shape of one encoded SDR chain step, in the canonical spelling
used by the record lemmas. -/
theorem write_sdr_chain_cons (size tbase : Nat) (dat : Data) (cnt : Nat)
    (tl : DataMap) (tailB : List Nat) (hlen : dat.length = size)
    (htl : write_sdr_chain size 1 tl = .ok tailB) :
    write_sdr_chain size tbase ((dat, cnt) :: tl) = .ok
      ((tbase + (if 1 < cnt then 16 else 0) + (if tl.isEmpty then 0 else 8) +
        (if allSame dat then 1 else 0)) ::
       ((if 1 < cnt then natToBE4 cnt else []) ++
        ((if allSame dat then [dat.getD 0 0] else dat) ++ tailB))) := by
  by_cases hcnt2 : 1 < cnt <;> cases hcomp : allSame dat <;>
    simp [write_sdr_chain, hlen, htl, hcnt2, hcomp, List.getD]

/-- An SDR chain whose tail encoding fails also fails. -/
theorem write_sdr_chain_cons_error (size tbase : Nat) (dat : Data) (cnt : Nat)
    (tl : DataMap) (e : String) (hlen : dat.length = size)
    (htl : write_sdr_chain size 1 tl = .error e) :
    write_sdr_chain size tbase ((dat, cnt) :: tl) = .error e := by
  simp [write_sdr_chain, hlen, htl]

/-- Round trip of a whole SDR chain in non-first position (an induction
helper; real chains start with `write_read_chain_first`). -/
theorem write_read_chain_rest (size : Nat) :
    ∀ (entries : DataMap) (sec : Sector) (rest bytes : List Nat) (fuel : Nat),
    entries ≠ [] →
    (∀ e ∈ entries, 1 ≤ e.2 ∧ e.2 < 4294967296) →
    sortedKeys (sec.datas ++ entries) = true →
    entries.length ≤ fuel →
    write_sdr_chain size 1 entries = .ok bytes →
    readSDRs size fuel false sec (bytes ++ rest) =
      .ok ({ sec with datas := sec.datas ++ entries }, rest)
  | [], _, _, _, _, hne, _, _, _, _ => absurd rfl hne
  | (dat, cnt) :: tl, sec, rest, bytes, fuel, _, hcnts, hsort, hfuel, hw => by
    have hlen : dat.length = size := by
      by_cases h : dat.length = size
      · exact h
      · simp [write_sdr_chain, h] at hw
    obtain ⟨f, rfl⟩ : ∃ f, fuel = f + 1 := by
      cases fuel with
      | zero => simp at hfuel
      | succ f => exact ⟨f, rfl⟩
    have hbelow : allBelow sec.datas dat = true :=
      sortedKeys_append_allBelow hsort
    have hins := mapInsert_append (m := sec.datas) (k := dat) (v := cnt) hbelow
    have hcnt1 : 1 ≤ cnt ∧ cnt < 4294967296 := hcnts (dat, cnt) (by simp)
    cases tl with
    | nil =>
      rw [write_sdr_chain_cons size 1 dat cnt [] [] hlen rfl] at hw
      injection hw with hbytes
      subst hbytes
      have hrec := readSDRs_record_rest size f cnt hcnt1.1 hcnt1.2 dat hlen
        false sec rest
      simp only [List.isEmpty_nil, if_true, Bool.false_eq_true, if_false,
        Nat.add_zero, List.append_nil, List.nil_append, List.cons_append,
        List.append_assoc] at hrec ⊢
      rw [hrec]
      simp [hins]
    | cons e2 tl2 =>
      cases htl : write_sdr_chain size 1 (e2 :: tl2) with
      | error e =>
        rw [write_sdr_chain_cons_error size 1 dat cnt (e2 :: tl2) e hlen htl]
          at hw
        simp at hw
      | ok tailB =>
        rw [write_sdr_chain_cons size 1 dat cnt (e2 :: tl2) tailB hlen htl]
          at hw
        injection hw with hbytes
        subst hbytes
        have hrec := readSDRs_record_rest size f cnt hcnt1.1 hcnt1.2 dat hlen
          true sec (tailB ++ rest)
        simp only [List.isEmpty_cons, if_true, if_false, Bool.false_eq_true,
          Bool.true_eq_false, Nat.add_zero, List.append_nil, List.nil_append,
          List.cons_append, List.append_assoc] at hrec ⊢
        rw [hrec]
        have hsort2 : sortedKeys ((sec.datas ++ [(dat, cnt)]) ++ e2 :: tl2)
            = true := by
          rw [List.append_assoc]
          simpa using hsort
        have hih := write_read_chain_rest size (e2 :: tl2)
          { sec with datas := sec.datas ++ [(dat, cnt)] } rest tailB f
          (by simp)
          (fun e he => hcnts e (by simp [he]))
          (by simpa using hsort2)
          (by simpa using Nat.le_of_succ_le_succ hfuel)
          htl
        simp only at hih
        simp [hins, hih, List.append_assoc]

/-- Round trip of a sector's whole SDR chain: reading back the encoding of a
nonempty `datas` map, starting from a freshly initialized sector, restores
the status, the deleted flag, and the map in its iteration order. -/
theorem write_read_chain_first (size : Nat) (entries : DataMap) (fr : Sector)
    (rest bytes : List Nat) (fuel : Nat) (st : SectorStatus) (del : Bool)
    (hst : st ≠ .missing)
    (hne : entries ≠ [])
    (hcnts : ∀ e ∈ entries, 1 ≤ e.2 ∧ e.2 < 4294967296)
    (hsort : sortedKeys (fr.datas ++ entries) = true)
    (hfuel : entries.length ≤ fuel)
    (hw : write_sdr_chain size (statusType st + (if del then 2 else 0))
      entries = .ok bytes) :
    readSDRs size fuel true fr (bytes ++ rest) =
      .ok ({ fr with
             status := st, deleted := fr.deleted || del,
             datas := fr.datas ++ entries }, rest) := by
  match entries, hne with
  | (dat, cnt) :: tl, _ =>
    have hlen : dat.length = size := by
      by_cases h : dat.length = size
      · exact h
      · simp [write_sdr_chain, h] at hw
    obtain ⟨f, rfl⟩ : ∃ f, fuel = f + 1 := by
      cases fuel with
      | zero => simp at hfuel
      | succ f => exact ⟨f, rfl⟩
    have hbelow : allBelow fr.datas dat = true :=
      sortedKeys_append_allBelow hsort
    have hins := mapInsert_append (m := fr.datas) (k := dat) (v := cnt) hbelow
    have hcnt1 : 1 ≤ cnt ∧ cnt < 4294967296 := hcnts (dat, cnt) (by simp)
    cases tl with
    | nil =>
      rw [write_sdr_chain_cons size _ dat cnt [] [] hlen rfl] at hw
      injection hw with hbytes
      subst hbytes
      have hrec := readSDRs_record_first size f st hst del cnt hcnt1.1
        hcnt1.2 dat hlen false fr rest
      simp only [List.isEmpty_nil, if_true, Bool.false_eq_true, if_false,
        Nat.add_zero, List.append_nil, List.nil_append, List.cons_append,
        List.append_assoc] at hrec ⊢
      rw [hrec]
      simp [hins]
    | cons e2 tl2 =>
      cases htl : write_sdr_chain size 1 (e2 :: tl2) with
      | error e =>
        rw [write_sdr_chain_cons_error size _ dat cnt (e2 :: tl2) e hlen htl]
          at hw
        simp at hw
      | ok tailB =>
        rw [write_sdr_chain_cons size _ dat cnt (e2 :: tl2) tailB hlen htl]
          at hw
        injection hw with hbytes
        subst hbytes
        have hrec := readSDRs_record_first size f st hst del cnt hcnt1.1
          hcnt1.2 dat hlen true fr (tailB ++ rest)
        simp only [List.isEmpty_cons, if_true, if_false, Bool.false_eq_true,
          Bool.true_eq_false, Nat.add_zero, List.append_nil, List.nil_append,
          List.cons_append, List.append_assoc] at hrec ⊢
        rw [hrec]
        have hsort2 : sortedKeys ((fr.datas ++ [(dat, cnt)]) ++ e2 :: tl2)
            = true := by
          rw [List.append_assoc]
          simpa using hsort
        have hih := write_read_chain_rest size (e2 :: tl2)
          { fr with
            status := st, deleted := fr.deleted || del,
            datas := fr.datas ++ [(dat, cnt)] } rest tailB f
          (by simp)
          (fun e he => hcnts e (by simp [he]))
          (by simpa using hsort2)
          (by simpa using Nat.le_of_succ_le_succ hfuel)
          htl
        simp only at hih
        simp [hins, hih, List.append_assoc]

/-- Each `datas` entry contributes at least one byte (its type byte) to the
encoded chain. -/
theorem write_sdr_chain_length (size : Nat) :
    ∀ (tbase : Nat) (entries : DataMap) (bytes : List Nat),
    write_sdr_chain size tbase entries = .ok bytes →
    entries.length ≤ bytes.length
  | _, [], bytes, hw => by
    simp [write_sdr_chain] at hw
    simp [← hw]
  | tbase, (dat, cnt) :: tl, bytes, hw => by
    have hlen : dat.length = size := by
      by_cases h : dat.length = size
      · exact h
      · simp [write_sdr_chain, h] at hw
    cases htl : write_sdr_chain size 1 tl with
    | error e =>
      rcases tl with _ | ⟨e2, tl2⟩
      · simp [write_sdr_chain] at htl
      · rw [write_sdr_chain_cons_error size tbase dat cnt (e2 :: tl2) e hlen
          htl] at hw
        simp at hw
    | ok tailB =>
      have := write_sdr_chain_length size 1 tl tailB htl
      rw [write_sdr_chain_cons size tbase dat cnt tl tailB hlen htl] at hw
      injection hw with hbytes
      subst hbytes
      simp
      omega

/-! ## Model invariants satisfied by disks that acquisition can produce -/

/-- The sector part of the model invariants: field ranges from the C types,
the sector invariant of the data model, and the `std::map` representation
invariant with `uint32` read counts. -/
def SectorInv (size : Nat) (sec : Sector) : Prop :=
  sec.log_cyl < 256 ∧ sec.log_head < 256 ∧ sec.log_sector < 256 ∧
  sec.datas.isEmpty = (sec.status == SectorStatus.missing) ∧
  (sec.deleted = true → sec.status ≠ .missing) ∧
  sortedKeys sec.datas = true ∧
  ∀ e ∈ sec.datas, e.1.length = size ∧ (∀ b ∈ e.1, b < 256) ∧
    1 ≤ e.2 ∧ e.2 < 4294967296

instance (size : Nat) (sec : Sector) : Decidable (SectorInv size sec) := by
  unfold SectorInv
  infer_instance

/-- A `0x00` type byte ends the SDR loop at once, leaving the sector as it
was. -/
theorem readSDRs_zero (size fuel : Nat) (first : Bool) (sec : Sector)
    (s : List Nat) :
    readSDRs size (fuel + 1) first sec (0 :: s) = .ok (sec, s) := by
  simp [readSDRs]

/-- Round trip of the per-sector loops: writing the SDRs of a sector list and
reading them back over fresh sector slots restores the sectors exactly. -/
theorem write_read_sectors (size_code : Nat) :
    ∀ (sectors : List Sector) (body rest : List Nat) (i : Nat),
    (∀ sec ∈ sectors, SectorInv (sector_bytes size_code) sec) →
    write_sdr_all size_code sectors = .ok body →
    readSectors (sector_bytes size_code) []
      (zip3 (sectors.map (fun sec => sec.log_sector))
        (sectors.map (fun sec => sec.log_cyl))
        (sectors.map (fun sec => sec.log_head)))
      (body ++ rest) i = .ok (sectors, rest)
  | [], body, rest, i, _, hw => by
    simp [write_sdr_all] at hw
    simp [← hw, zip3, readSectors]
  | sec :: tll, body, rest, i, hinv, hw => by
    have hsec := hinv sec (by simp)
    obtain ⟨-, -, -, hemp, hdel, hsort, hents⟩ := hsec
    have hassert1 : (sec.datas.isEmpty ≠ (sec.status == SectorStatus.missing))
        = False := by simp [hemp]
    have hassert2 : (sec.deleted && sec.datas.isEmpty) = false := by
      cases hd : sec.deleted
      · simp
      · have hne := hdel hd
        have : (sec.status == SectorStatus.missing) = false := by
          simpa using hne
        simp [hemp, this]
    by_cases hmiss : sec.status = .missing
    · -- MISSING: empty datas, lone 0x00 type byte
      have hdatas : sec.datas = [] := by
        have : sec.datas.isEmpty = true := by simp [hemp, hmiss]
        simpa [List.isEmpty_iff] using this
      have hdelf : sec.deleted = false := by
        cases hd : sec.deleted
        · rfl
        · exact absurd hmiss (hdel hd)
      cases htl : write_sdr_all size_code tll with
      | error e =>
        simp [write_sdr_all, hassert1, hassert2, hdatas, hmiss, hdelf, htl]
          at hw
      | ok tailBody =>
        have hbody : body = 0 :: tailBody := by
          simp [write_sdr_all, hassert1, hassert2, hdatas, hmiss, hdelf,
            statusType, htl] at hw
          simp [← hw]
        subst hbody
        have hih := write_read_sectors size_code tll tailBody rest (i + 1)
          (fun s hs => hinv s (by simp [hs])) htl
        have hsec_eq : ({ status := .missing,
                          log_cyl := sec.log_cyl,
                          log_head := sec.log_head,
                          log_sector := sec.log_sector,
                          deleted := false,
                          datas := [] } : Sector) = sec := by
          cases sec with
          | mk st lc lh ls del datas => simp_all
        simp only [List.map_cons, zip3, List.cons_append]
        simp only [readSectors]
        rw [if_neg (by simp [init_sector])]
        simp only [List.length_cons]
        rw [readSDRs_zero]
        simp only [hih, hsec_eq]
    · -- BAD or GOOD: nonempty datas, a full SDR chain
      have hdne : sec.datas ≠ [] := by
        intro h0
        apply hmiss
        have h1 : sec.datas.isEmpty = true := by simp [h0]
        rw [hemp] at h1
        simpa using h1
      have hdemp : sec.datas.isEmpty = false := by
        simpa [List.isEmpty_iff] using hdne
      cases hch : write_sdr_chain (sector_bytes size_code)
          (if sec.deleted then statusType sec.status + 2
           else statusType sec.status) sec.datas with
      | error e =>
        simp [write_sdr_all, hassert1, hassert2, hdemp, hch, hmiss] at hw
      | ok chainBytes =>
        cases htl : write_sdr_all size_code tll with
        | error e =>
          simp [write_sdr_all, hassert1, hassert2, hdemp, hch, htl, hmiss]
            at hw
        | ok tailBody =>
          have hbody : body = chainBytes ++ tailBody := by
            simp [write_sdr_all, hassert1, hassert2, hdemp, hch, htl, hmiss]
              at hw
            simp [← hw]
          subst hbody
          have hch2 : write_sdr_chain (sector_bytes size_code)
              (statusType sec.status + (if sec.deleted then 2 else 0))
              sec.datas = .ok chainBytes := by
            cases hd : sec.deleted <;> simpa [hd] using hch
          have hchlen := write_sdr_chain_length (sector_bytes size_code) _
            sec.datas chainBytes hch
          have hih := write_read_sectors size_code tll tailBody rest (i + 1)
            (fun s hs => hinv s (by simp [hs])) htl
          have hsec_eq : ({ status := sec.status,
                            log_cyl := sec.log_cyl,
                            log_head := sec.log_head,
                            log_sector := sec.log_sector,
                            deleted := false || sec.deleted,
                            datas := [] ++ sec.datas } : Sector) = sec := by
            cases sec with
            | mk st lc lh ls del datas => simp_all
          simp only [List.map_cons, zip3, List.cons_append]
          simp only [readSectors]
          rw [if_neg (by simp [init_sector])]
          have hstream : (chainBytes ++ tailBody) ++ rest =
              chainBytes ++ (tailBody ++ rest) := by
            simp [List.append_assoc]
          rw [hstream]
          have hfirst := write_read_chain_first (sector_bytes size_code)
            sec.datas
            { status := .missing,
              log_cyl := sec.log_cyl,
              log_head := sec.log_head,
              log_sector := sec.log_sector,
              deleted := false,
              datas := [] }
            (tailBody ++ rest) chainBytes
            ((chainBytes ++ (tailBody ++ rest)).length + 1)
            sec.status sec.deleted hmiss hdne
            (fun e he => ((hents e he).2.2))
            (by simpa using hsort)
            (by simp only [List.length_append]; omega)
            hch2
          simp only at hfirst
          rw [hfirst]
          simp only [hih, hsec_eq]

/-! ## Track-level round trip -/

/-- The track part of the model invariants: field ranges from the C types,
the probed-size rule, and the per-sector invariants. -/
def TrackInv (t : Track) : Prop :=
  t.data_mode ∈ DATA_MODES ∧ t.phys_cyl < 256 ∧ t.phys_head < 2 ∧
  t.sector_size_code < 256 ∧ t.sectors.length < 256 ∧
  (t.sectors ≠ [] → t.sector_size_code ≠ 255) ∧
  ∀ sec ∈ t.sectors, SectorInv (sector_bytes t.sector_size_code) sec

instance (t : Track) : Decidable (TrackInv t) := by
  unfold TrackInv
  infer_instance

/-- `num_phys_cyls` update of `read_imd_track`. -/
def bumpCyls (d : Disk) (c : Nat) : Disk :=
  if d.num_phys_cyls ≤ c then { d with num_phys_cyls := c + 1 } else d

/-- `num_phys_heads` update of `read_imd_track`. -/
def bumpHeads (d : Disk) (h : Nat) : Disk :=
  if d.num_phys_heads ≤ h then { d with num_phys_heads := h + 1 } else d

theorem flags_div4 (a b : Bool) (hd : Nat) (h : hd < 2) :
    ((if a then 128 else 0) + (if b then 64 else 0) + hd) / 4 % 16 = 0 := by
  cases a <;> cases b <;> simp <;> omega

theorem flags_mod4 (a b : Bool) (hd : Nat) (h : hd < 2) :
    ((if a then 128 else 0) + (if b then 64 else 0) + hd) % 4 = hd := by
  cases a <;> cases b <;> simp <;> omega

theorem flags_need_cyl (a b : Bool) (hd : Nat) (h : hd < 2) :
    decide (((if a then 128 else 0) + (if b then 64 else 0) + hd) / 128 % 2
      = 1) = a := by
  cases a <;> cases b <;> simp <;> omega

theorem flags_need_head (a b : Bool) (hd : Nat) (h : hd < 2) :
    decide (((if a then 128 else 0) + (if b then 64 else 0) + hd) / 64 % 2
      = 1) = b := by
  cases a <;> cases b <;> simp <;> omega

/-- When no sector differs from the default value, the `memset` default map
equals the real per-sector map. -/
theorem replicate_eq_map (f : Sector → Nat) (p : Nat) :
    ∀ (l : List Sector), (l.any (fun s => f s ≠ p)) = false →
    List.replicate l.length p = l.map f
  | [], _ => rfl
  | sec :: tl, h => by
    simp only [List.any_cons, Bool.or_eq_false_iff] at h
    have h1 : f sec = p := by
      have := h.1
      simpa using this
    simp only [List.length_cons, List.replicate_succ, List.map_cons, h1]
    rw [replicate_eq_map f p tl h.2]

theorem contains_of_mem {l : List Nat} {x : Nat} (h : x ∈ l) :
    l.contains x = true :=
  List.elem_eq_true_of_mem h

/-- Reading an optional map block back: when the flag was set the written
map follows; when it was clear the `memset` default reproduces it. -/
theorem readMapBlock_map (flag : Bool) (f : Sector → Nat) (p : Nat)
    (sectors : List Sector) (hflag : flag = sectors.any (fun s => f s ≠ p))
    (rest : List Nat) (msg : String) :
    readMapBlock flag sectors.length p
      ((if flag then sectors.map f else []) ++ rest) msg =
      .ok (sectors.map f, rest) := by
  cases flag with
  | true => simp [readMapBlock, readBytes_exact (List.length_map _ _)]
  | false =>
    have hrep := replicate_eq_map f p sectors hflag.symm
    simp [readMapBlock, hrep]

theorem readBytes5 (a b c dd e : Nat) (s : List Nat) :
    readBytes 5 (a :: b :: c :: dd :: e :: s) = some ([a, b, c, dd, e], s) := by
  simp [readBytes]

/-- Round trip of one track record: reading back the bytes of
`write_imd_track` places the same track, with status PROBED, at its physical
slot, and extends the geometry monotonically. -/
theorem write_read_track (d : Disk) (t : Track) (bytes rest : List Nat)
    (hinv : TrackInv t)
    (hfresh : (getTrack d t.phys_cyl t.phys_head).sectors = [])
    (hw : write_imd_track t = .ok bytes) :
    read_imd_track d (bytes ++ rest) = .ok (some
      (setTrack (bumpHeads (bumpCyls d t.phys_cyl) t.phys_head)
        t.phys_cyl t.phys_head { t with status := .probed }, rest)) := by
  obtain ⟨hmode, hc256, hh2, hsz256, hlen256, hszne, hsecs⟩ := hinv
  cases hbody : write_sdr_all t.sector_size_code t.sectors with
  | error e => simp [write_imd_track, hbody] at hw
  | ok body =>
    simp only [write_imd_track, hbody] at hw
    injection hw with hbytes
    subst hbytes
    by_cases hts : t.sectors = []
    · -- an empty track record: header only, early return on num_sectors == 0
      have hbody0 : body = [] := by
        rw [hts] at hbody
        simp [write_sdr_all] at hbody
        exact hbody
      subst hbody0
      have heta : ({ status := .probed,
                     data_mode := t.data_mode,
                     phys_cyl := t.phys_cyl,
                     phys_head := t.phys_head,
                     sector_size_code := t.sector_size_code,
                     sectors := ([] : List Sector) } : Track) =
          { t with status := .probed } := by
        cases t
        simp_all
      rw [hts]
      simp only [List.map_nil, List.any_nil, List.length_nil, if_false,
        Bool.false_eq_true, List.append_nil, List.nil_append,
        List.cons_append, Nat.add_zero, Nat.zero_add]
      simp only [read_imd_track, readBytes, List.length_cons,
        List.length_append]
      rw [if_pos (by omega)]
      simp only [List.take_succ_cons, List.take_zero, List.drop_succ_cons,
        List.drop_zero]
      rw [if_neg (by omega)]
      simp only [show t.phys_head / 4 % 16 = 0 from by omega,
        show t.phys_head % 4 = t.phys_head from Nat.mod_eq_of_lt (by omega)]
      rw [if_neg (by simp)]
      rw [if_neg (show ¬ (2 ≤ t.phys_head) from by omega)]
      rw [contains_of_mem hmode]
      rw [if_neg (by simp)]
      simp only [if_true]
      rw [heta]
      simp [bumpCyls, bumpHeads]
    · -- a track with sectors: maps and SDRs follow
      have hlen0 : t.sectors.length ≠ 0 := by
        simpa [List.length_eq_zero] using hts
      have heta : ({ status := .probed,
                     data_mode := t.data_mode,
                     phys_cyl := t.phys_cyl,
                     phys_head := t.phys_head,
                     sector_size_code := t.sector_size_code,
                     sectors := t.sectors } : Track) =
          { t with status := .probed } := by
        cases t
        rfl
      simp only [read_imd_track, List.cons_append, List.append_assoc,
        List.nil_append]
      rw [readBytes5]
      dsimp only
      rw [if_neg (by omega)]
      rw [flags_div4 _ _ t.phys_head hh2]
      rw [flags_mod4 _ _ t.phys_head hh2]
      rw [if_neg (by simp)]
      rw [if_neg (show ¬ (2 ≤ t.phys_head) from by omega)]
      rw [contains_of_mem hmode]
      rw [if_neg (by simp)]
      rw [if_neg hlen0]
      rw [if_neg (hszne hts)]
      rw [readBytes_exact (List.length_map _ _)]
      rw [flags_need_cyl _ _ t.phys_head hh2]
      rw [flags_need_head _ _ t.phys_head hh2]
      dsimp only
      rw [readMapBlock_map _ (fun sec => sec.log_cyl) t.phys_cyl t.sectors
        rfl _ _]
      dsimp only
      rw [readMapBlock_map _ (fun sec => sec.log_head) t.phys_head t.sectors
        rfl _ _]
      dsimp only
      simp only [getTrack] at hfresh
      by_cases hbc : d.num_phys_cyls ≤ t.phys_cyl <;>
        by_cases hbh : d.num_phys_heads ≤ t.phys_head <;>
        (simp only [hbc, hbh, if_true, if_false, getTrack]
         rw [hfresh]
         rw [write_read_sectors t.sector_size_code t.sectors body rest 0 hsecs
           hbody]
         rw [heta]
         simp [bumpCyls, bumpHeads, hbc, hbh])

/-! ## Disk-level round trip -/

theorem splitComment_append {com : List Nat} (h : 26 ∉ com)
    (body : List Nat) : splitComment (com ++ 26 :: body) = some (com, body) := by
  induction com with
  | nil => simp [splitComment]
  | cons b bs ih =>
    have hb : b ≠ 26 := by
      intro hb
      exact h (by simp [hb])
    have ih2 := ih (fun hm => h (List.mem_cons_of_mem _ hm))
    simp [splitComment, hb, ih2]

theorem getTrack_setTrack_ne (d : Disk) (c h c2 hh : Nat) (t : Track)
    (hne : c * 2 + h ≠ c2 * 2 + hh) :
    getTrack (setTrack d c h t) c2 hh = getTrack d c2 hh := by
  simp only [getTrack, setTrack]
  rw [List.getD_eq_getElem?_getD, List.getD_eq_getElem?_getD,
    List.getElem?_set_ne hne]

theorem getTrack_setTrack_eq (d : Disk) (c h : Nat) (t : Track)
    (hlt : c * 2 + h < d.tracks.length) :
    getTrack (setTrack d c h t) c h = t := by
  simp only [getTrack, setTrack]
  rw [List.getD_eq_getElem?_getD, List.getElem?_set_self (by simpa using hlt)]
  simp

theorem getTrack_bumpCyls (d : Disk) (c c2 hh : Nat) :
    getTrack (bumpCyls d c) c2 hh = getTrack d c2 hh := by
  simp only [bumpCyls, getTrack]
  split <;> rfl

theorem getTrack_bumpHeads (d : Disk) (h c2 hh : Nat) :
    getTrack (bumpHeads d h) c2 hh = getTrack d c2 hh := by
  simp only [bumpHeads, getTrack]
  split <;> rfl

theorem tracks_length_setTrack (d : Disk) (c h : Nat) (t : Track) :
    (setTrack d c h t).tracks.length = d.tracks.length := by
  simp [setTrack]

theorem tracks_length_bumpCyls (d : Disk) (c : Nat) :
    (bumpCyls d c).tracks.length = d.tracks.length := by
  simp only [bumpCyls]
  split <;> rfl

theorem tracks_length_bumpHeads (d : Disk) (h : Nat) :
    (bumpHeads d h).tracks.length = d.tracks.length := by
  simp only [bumpHeads]
  split <;> rfl

theorem comment_setTrack (d : Disk) (c h : Nat) (t : Track) :
    (setTrack d c h t).comment = d.comment := rfl

theorem comment_bumpCyls (d : Disk) (c : Nat) :
    (bumpCyls d c).comment = d.comment := by
  simp only [bumpCyls]
  split <;> rfl

theorem comment_bumpHeads (d : Disk) (h : Nat) :
    (bumpHeads d h).comment = d.comment := by
  simp only [bumpHeads]
  split <;> rfl

theorem regionPairs_mem {C H : Nat} {p : Nat × Nat} :
    p ∈ regionPairs C H ↔ p.1 < C ∧ p.2 < H := by
  obtain ⟨c, h⟩ := p
  simp [regionPairs, List.mem_bind]

theorem regionPairs_succ (C H : Nat) :
    regionPairs (C + 1) H =
      regionPairs C H ++ (List.range H).map (fun h => (C, h)) := by
  simp [regionPairs, List.range_succ]

/-- The row-major region pairs occupy pairwise distinct grid slots. -/
theorem regionPairs_slot_pairwise (H : Nat) (hH : H ≤ 2) :
    ∀ C, List.Pairwise (fun a b : Nat × Nat =>
      a.1 * 2 + a.2 ≠ b.1 * 2 + b.2) (regionPairs C H)
  | 0 => by simp [regionPairs]
  | C + 1 => by
    rw [regionPairs_succ, List.pairwise_append]
    refine ⟨regionPairs_slot_pairwise H hH C, ?_, ?_⟩
    · -- within the new block, the heads differ
      have : List.Pairwise (fun a b : Nat => a ≠ b) (List.range H) :=
        List.Pairwise.imp (fun h => Nat.ne_of_lt h) (List.pairwise_lt_range H)
      refine List.Pairwise.map _ ?_ this
      intro a b hab
      simp only [ne_eq]
      omega
    · -- slots in the old region are below the new block
      intro a ha b hb
      have ha2 := regionPairs_mem.mp ha
      have hb2 : b.1 = C ∧ b.2 < H := by
        simp only [List.mem_map, List.mem_range] at hb
        obtain ⟨h, hh, rfl⟩ := hb
        exact ⟨rfl, hh⟩
      have h1 : a.1 < C := ha2.1
      have h2 : a.2 < H := ha2.2
      omega

/-- The disk state after the reader has consumed, in order, the track records
of the slots in `ps` (each read bumps the geometry and stores the track with
status PROBED). -/
def applyTracks (dW : Disk) : Disk → List (Nat × Nat) → Disk
  | dR, [] => dR
  | dR, (c, h) :: ps =>
    applyTracks dW
      (setTrack (bumpHeads (bumpCyls dR c) h) c h
        { getTrack dW c h with status := .probed }) ps

theorem applyTracks_comment (dW : Disk) :
    ∀ (ps : List (Nat × Nat)) (dR : Disk),
    (applyTracks dW dR ps).comment = dR.comment
  | [], _ => rfl
  | (c, h) :: ps, dR => by
    rw [applyTracks, applyTracks_comment dW ps]
    simp [comment_setTrack, comment_bumpCyls, comment_bumpHeads]

theorem applyTracks_tracks_length (dW : Disk) :
    ∀ (ps : List (Nat × Nat)) (dR : Disk),
    (applyTracks dW dR ps).tracks.length = dR.tracks.length
  | [], _ => rfl
  | (c, h) :: ps, dR => by
    rw [applyTracks, applyTracks_tracks_length dW ps]
    simp [tracks_length_setTrack, tracks_length_bumpCyls,
      tracks_length_bumpHeads]

/-- Pointwise description of the grid after all the reads. -/
theorem applyTracks_getTrack (dW : Disk) :
    ∀ (ps : List (Nat × Nat)) (dR : Disk) (c2 hh : Nat),
    hh < 2 →
    List.Pairwise (fun a b : Nat × Nat =>
      a.1 * 2 + a.2 ≠ b.1 * 2 + b.2) ps →
    (∀ p ∈ ps, p.2 < 2 ∧ p.1 * 2 + p.2 < dR.tracks.length) →
    getTrack (applyTracks dW dR ps) c2 hh =
      (if (c2, hh) ∈ ps then { getTrack dW c2 hh with status := .probed }
       else getTrack dR c2 hh)
  | [], dR, c2, hh, _, _, _ => by simp [applyTracks]
  | (c, h) :: ps, dR, c2, hh, hh2, hpw, hlt => by
    have hh2p := (hlt (c, h) (by simp)).1
    have hslot := (hlt (c, h) (by simp)).2
    rw [applyTracks]
    have hlen2 : ∀ p ∈ ps, p.2 < 2 ∧
        p.1 * 2 + p.2 < (setTrack (bumpHeads (bumpCyls dR c) h) c h
          { getTrack dW c h with status := .probed }).tracks.length := by
      intro p hp
      have := hlt p (by simp [hp])
      simpa [tracks_length_setTrack, tracks_length_bumpCyls,
        tracks_length_bumpHeads] using this
    rw [applyTracks_getTrack dW ps _ c2 hh hh2 (List.pairwise_cons.mp hpw).2 hlen2]
    by_cases hmem : (c2, hh) ∈ ps
    · simp [hmem]
    · simp only [hmem, if_false]
      by_cases heq : (c, h) = (c2, hh)
      · have hc : c = c2 := by
          have := congrArg Prod.fst heq
          simpa using this
        have hhh : h = hh := by
          have := congrArg Prod.snd heq
          simpa using this
        subst hc
        subst hhh
        rw [getTrack_setTrack_eq _ _ _ _
          (by simpa [tracks_length_bumpCyls, tracks_length_bumpHeads]
            using hslot)]
        simp
      · have hslotne : c * 2 + h ≠ c2 * 2 + hh := by
          intro habs
          apply heq
          have hc : c = c2 := by omega
          have hhh : h = hh := by omega
          rw [hc, hhh]
        rw [getTrack_setTrack_ne _ _ _ _ _ _ hslotne,
          getTrack_bumpHeads, getTrack_bumpCyls]
        have hnotmem : (c2, hh) ∉ (c, h) :: ps := by
          simp only [List.mem_cons]
          rintro (habs | habs)
          · exact heq habs.symm
          · exact hmem habs
        rw [if_neg hnotmem]

/-- `write_read_track` restated with the slot coordinates as parameters. -/
theorem write_read_track_at (d : Disk) (t : Track) (c h : Nat)
    (bytes rest : List Nat) (hinv : TrackInv t)
    (hc : t.phys_cyl = c) (hh : t.phys_head = h)
    (hfresh : (getTrack d c h).sectors = [])
    (hw : write_imd_track t = .ok bytes) :
    read_imd_track d (bytes ++ rest) = .ok (some
      (setTrack (bumpHeads (bumpCyls d c) h) c h
        { t with status := .probed }, rest)) := by
  subst hc
  subst hh
  exact write_read_track d t bytes rest hinv hfresh hw

/-- The reader loop over a list of track records (distinct slots, all fresh
in the current disk) produces exactly the `applyTracks` state. -/
theorem read_write_tracks_loop (dW : Disk) :
    ∀ (ps : List (Nat × Nat)) (dR : Disk) (body : List Nat) (fuel : Nat),
    (∀ p ∈ ps, TrackInv (getTrack dW p.1 p.2) ∧
      (getTrack dW p.1 p.2).phys_cyl = p.1 ∧
      (getTrack dW p.1 p.2).phys_head = p.2 ∧
      (getTrack dR p.1 p.2).sectors = []) →
    List.Pairwise (fun a b : Nat × Nat =>
      a.1 * 2 + a.2 ≠ b.1 * 2 + b.2) ps →
    ps.length < fuel →
    write_tracks dW ps = .ok body →
    read_imd_tracks fuel dR body = .ok (applyTracks dW dR ps)
  | [], dR, body, fuel, _, _, hfuel, hw => by
    have hbody : body = [] := by
      simp [write_tracks] at hw
      exact hw
    subst hbody
    obtain ⟨f, rfl⟩ : ∃ f, fuel = f + 1 := by
      cases fuel with
      | zero => simp at hfuel
      | succ f => exact ⟨f, rfl⟩
    simp [read_imd_tracks, read_imd_track, applyTracks]
  | (c, h) :: tl, dR, body, fuel, hcond, hpw, hfuel, hw => by
    obtain ⟨f, rfl⟩ : ∃ f, fuel = f + 1 := by
      cases fuel with
      | zero => simp at hfuel
      | succ f => exact ⟨f, rfl⟩
    obtain ⟨hti, hpc, hph, hfr⟩ := hcond (c, h) (by simp)
    simp only at hti hpc hph hfr
    cases htb : write_imd_track (getTrack dW c h) with
    | error e => simp [write_tracks, htb] at hw
    | ok tb =>
      cases htltracks : write_tracks dW tl with
      | error e => simp [write_tracks, htb, htltracks] at hw
      | ok tailB =>
        have hbody : body = tb ++ tailB := by
          simp [write_tracks, htb, htltracks] at hw
          exact hw.symm
        subst hbody
        have hrd := write_read_track_at dR (getTrack dW c h) c h tb tailB
          hti hpc hph hfr htb
        rw [read_imd_tracks, hrd]
        have hpw2 := List.pairwise_cons.mp hpw
        have hcond2 : ∀ p ∈ tl, TrackInv (getTrack dW p.1 p.2) ∧
            (getTrack dW p.1 p.2).phys_cyl = p.1 ∧
            (getTrack dW p.1 p.2).phys_head = p.2 ∧
            (getTrack (setTrack (bumpHeads (bumpCyls dR c) h) c h
              { getTrack dW c h with status := .probed })
              p.1 p.2).sectors = [] := by
          intro p hp
          obtain ⟨a1, a2, a3, a4⟩ := hcond p (by simp [hp])
          refine ⟨a1, a2, a3, ?_⟩
          rw [getTrack_setTrack_ne _ _ _ _ _ _ (hpw2.1 p hp),
            getTrack_bumpHeads, getTrack_bumpCyls]
          exact a4
        have hih := read_write_tracks_loop dW tl _ tailB f hcond2 hpw2.2
          (by simpa using Nat.lt_of_succ_lt_succ hfuel) htltracks
        dsimp only
        rw [applyTracks]
        exact hih

/-- `write_sdr_chain` succeeds when every entry has the sector size. -/
theorem write_sdr_chain_ok (size : Nat) :
    ∀ (tbase : Nat) (entries : DataMap),
    (∀ e ∈ entries, e.1.length = size) →
    ∃ bytes, write_sdr_chain size tbase entries = .ok bytes
  | _, [], _ => ⟨[], rfl⟩
  | tbase, (dat, cnt) :: tl, hlen => by
    obtain ⟨tailB, htl⟩ := write_sdr_chain_ok size 1 tl
      (fun e he => hlen e (by simp [he]))
    have hl : dat.length = size := hlen (dat, cnt) (by simp)
    exact ⟨_, write_sdr_chain_cons size tbase dat cnt tl tailB hl htl⟩

/-- `write_sdr_all` succeeds under the sector invariants. -/
theorem write_sdr_all_ok (size_code : Nat) :
    ∀ (sectors : List Sector),
    (∀ sec ∈ sectors, SectorInv (sector_bytes size_code) sec) →
    ∃ body, write_sdr_all size_code sectors = .ok body
  | [], _ => ⟨[], rfl⟩
  | sec :: tl, hinv => by
    obtain ⟨tailB, htl⟩ := write_sdr_all_ok size_code tl
      (fun s hs => hinv s (by simp [hs]))
    obtain ⟨-, -, -, hemp, hdel, hsort, hents⟩ := hinv sec (by simp)
    have hassert1 : (sec.datas.isEmpty ≠ (sec.status == SectorStatus.missing))
        = False := by simp [hemp]
    have hassert2 : (sec.deleted && sec.datas.isEmpty) = false := by
      cases hd : sec.deleted
      · simp
      · have hne := hdel hd
        have : (sec.status == SectorStatus.missing) = false := by
          simpa using hne
        simp [hemp, this]
    by_cases hde : sec.datas.isEmpty
    · refine ⟨((if sec.deleted then statusType sec.status + 2
        else statusType sec.status) :: tailB), ?_⟩
      have hm2 : sec.status = SectorStatus.missing := by
        rw [hde] at hemp
        simpa using hemp.symm
      have hdf : sec.deleted = false := by
        cases hd : sec.deleted
        · rfl
        · exact absurd hm2 (hdel hd)
      simp [write_sdr_all, hassert1, hassert2, hde, htl, hm2, hdf]
    · obtain ⟨chainB, hch⟩ := write_sdr_chain_ok (sector_bytes size_code)
        (if sec.deleted then statusType sec.status + 2
         else statusType sec.status) sec.datas
        (fun e he => (hents e he).1)
      refine ⟨chainB ++ tailB, ?_⟩
      have hde2 : sec.datas.isEmpty = false := by
        simpa using hde
      have hnm : ¬ sec.status = SectorStatus.missing := by
        intro habs
        rw [habs] at hemp
        simp at hemp
        rw [hemp] at hde2
        cases hde2
      simp [write_sdr_all, hassert1, hassert2, hde2, hch, htl, hnm]

/-- `write_imd_track` succeeds under the track invariants. -/
theorem write_imd_track_ok (t : Track) (hinv : TrackInv t) :
    ∃ bytes, write_imd_track t = .ok bytes ∧ 1 ≤ bytes.length := by
  obtain ⟨-, -, -, -, -, -, hsecs⟩ := hinv
  obtain ⟨body, hbody⟩ := write_sdr_all_ok t.sector_size_code t.sectors hsecs
  simp only [write_imd_track, hbody]
  refine ⟨_, rfl, ?_⟩
  simp

/-- `write_tracks` succeeds and writes at least one byte per track. -/
theorem write_tracks_ok (dW : Disk) :
    ∀ (ps : List (Nat × Nat)),
    (∀ p ∈ ps, TrackInv (getTrack dW p.1 p.2)) →
    ∃ body, write_tracks dW ps = .ok body ∧ ps.length ≤ body.length
  | [], _ => ⟨[], rfl, by simp⟩
  | (c, h) :: tl, hinv => by
    obtain ⟨tailB, htl, hlen⟩ := write_tracks_ok dW tl
      (fun p hp => hinv p (by simp [hp]))
    obtain ⟨tb, htb, htb1⟩ := write_imd_track_ok (getTrack dW c h)
      (hinv (c, h) (by simp))
    refine ⟨tb ++ tailB, ?_, ?_⟩
    · simp [write_tracks, htb, htl]
    · simp only [List.length_cons, List.length_append]
      omega

/-- One reader step of the `num_phys_cyls` geometry extension. -/
def bumpStepCyl (n : Nat) (p : Nat × Nat) : Nat :=
  if n ≤ p.1 then p.1 + 1 else n

/-- One reader step of the `num_phys_heads` geometry extension. -/
def bumpStepHead (n : Nat) (p : Nat × Nat) : Nat :=
  if n ≤ p.2 then p.2 + 1 else n

theorem applyTracks_num_cyls (dW : Disk) :
    ∀ (ps : List (Nat × Nat)) (dR : Disk),
    (applyTracks dW dR ps).num_phys_cyls =
      List.foldl bumpStepCyl dR.num_phys_cyls ps
  | [], _ => rfl
  | (c, h) :: ps, dR => by
    rw [applyTracks, applyTracks_num_cyls dW ps, List.foldl_cons]
    congr 1
    simp only [setTrack, bumpHeads, bumpCyls, bumpStepCyl]
    split <;> split <;> rfl

theorem applyTracks_num_heads (dW : Disk) :
    ∀ (ps : List (Nat × Nat)) (dR : Disk),
    (applyTracks dW dR ps).num_phys_heads =
      List.foldl bumpStepHead dR.num_phys_heads ps
  | [], _ => rfl
  | (c, h) :: ps, dR => by
    rw [applyTracks, applyTracks_num_heads dW ps, List.foldl_cons]
    congr 1
    simp only [setTrack, bumpHeads, bumpCyls, bumpStepHead]
    split <;> split <;> rfl

theorem foldl_bumpStepCyl_stay :
    ∀ (l : List (Nat × Nat)) (n : Nat), (∀ p ∈ l, p.1 < n) →
    List.foldl bumpStepCyl n l = n
  | [], _, _ => rfl
  | p :: ps, n, h => by
    simp only [List.foldl_cons, bumpStepCyl]
    rw [if_neg (by have := h p (by simp); omega)]
    exact foldl_bumpStepCyl_stay ps n (fun q hq => h q (by simp [hq]))

theorem foldl_bumpStepCyl_region (H : Nat) (hH : 1 ≤ H) :
    ∀ C, List.foldl bumpStepCyl 0 (regionPairs C H) = C
  | 0 => by simp [regionPairs]
  | C + 1 => by
    rw [regionPairs_succ, List.foldl_append, foldl_bumpStepCyl_region H hH C]
    obtain ⟨H2, rfl⟩ : ∃ H2, H = H2 + 1 := ⟨H - 1, by omega⟩
    rw [List.range_succ_eq_map]
    simp only [List.map_cons, List.foldl_cons, bumpStepCyl]
    rw [if_pos (by omega)]
    rw [List.map_map]
    refine foldl_bumpStepCyl_stay _ (C + 1) ?_
    intro p hp
    simp only [List.mem_map, Function.comp] at hp
    obtain ⟨x, -, rfl⟩ := hp
    omega

theorem foldl_bumpStepHead_block :
    ∀ (H C n : Nat),
    List.foldl bumpStepHead n ((List.range H).map (fun h => (C, h))) =
      max n H
  | 0, _, n => by simp
  | H + 1, C, n => by
    rw [List.range_succ]
    simp only [List.map_append, List.foldl_append,
      foldl_bumpStepHead_block H C n, List.map_cons, List.map_nil,
      List.foldl_cons, List.foldl_nil, bumpStepHead]
    split <;> omega

theorem foldl_bumpStepHead_region (H : Nat) :
    ∀ C, 1 ≤ C → List.foldl bumpStepHead 0 (regionPairs C H) = H
  | 0, hC => by omega
  | C + 1, _ => by
    rw [regionPairs_succ, List.foldl_append]
    rcases Nat.eq_zero_or_pos C with h0 | hpos
    · subst h0
      simp only [regionPairs, List.range_zero, List.nil_bind,
        List.foldl_nil]
      rw [foldl_bumpStepHead_block]
      omega
    · rw [foldl_bumpStepHead_region H C hpos, foldl_bumpStepHead_block]
      omega

theorem getTrack_init (com : List Nat) (c h : Nat) (hc : c < 256)
    (hh : h < 2) :
    getTrack { init_disk with comment := com } c h = init_track c h := by
  have hidx : c * 2 + h < 512 := by omega
  simp only [getTrack, init_disk]
  rw [List.getD_eq_getElem?_getD]
  rw [List.getElem?_map]
  rw [List.getElem?_range hidx]
  have h1 : (c * 2 + h) / 2 = c := by omega
  have h2 : (c * 2 + h) % 2 = h := by omega
  simp [h1, h2]

theorem getTrack_eq_getD (dd : Disk) (i : Nat) :
    dd.tracks.getD i (init_track 0 0) = getTrack dd (i / 2) (i % 2) := by
  simp only [getTrack]
  congr 1
  omega

/-- The disk as it reads back: every track inside the geometry region gets
status PROBED; everything else is untouched. -/
def probify (d : Disk) : Disk :=
  { d with tracks := (List.range 512).map (fun i =>
      if i / 2 < d.num_phys_cyls ∧ i % 2 < d.num_phys_heads
      then { d.tracks.getD i (init_track 0 0) with status := .probed }
      else d.tracks.getD i (init_track 0 0)) }

/-- The model invariants (section 3 of the data model, plus the value ranges
of the C field types) of a disk that acquisition can produce. -/
def AcqInv (d : Disk) : Prop :=
  (∀ b ∈ d.comment, b < 256) ∧ (26 ∉ d.comment) ∧
  1 ≤ d.num_phys_cyls ∧ d.num_phys_cyls ≤ 256 ∧
  1 ≤ d.num_phys_heads ∧ d.num_phys_heads ≤ 2 ∧
  d.tracks.length = 512 ∧
  (∀ c, c < 256 → ∀ h, h < 2 →
    (getTrack d c h).phys_cyl = c ∧ (getTrack d c h).phys_head = h ∧
    (if c < d.num_phys_cyls ∧ h < d.num_phys_heads
     then TrackInv (getTrack d c h)
     else getTrack d c h = init_track c h))

instance (d : Disk) : Decidable (AcqInv d) := by
  unfold AcqInv
  infer_instance

/-- The disk-level round trip: under the model invariants, the encoder
succeeds and the parser restores the disk with every in-region track marked
PROBED. -/
theorem write_then_read_imd (d : Disk) (hinv : AcqInv d) :
    ∃ bs, write_imd d = .ok bs ∧ read_imd bs = .ok (probify d) := by
  obtain ⟨hcb, hc26, hC1, hC256, hH1, hH2, hlen512, hgrid⟩ := hinv
  have hregion : ∀ p ∈ regionPairs d.num_phys_cyls d.num_phys_heads,
      TrackInv (getTrack d p.1 p.2) ∧ (getTrack d p.1 p.2).phys_cyl = p.1 ∧
      (getTrack d p.1 p.2).phys_head = p.2 := by
    intro p hp
    have hm := regionPairs_mem.mp hp
    have hg := hgrid p.1 (by omega) p.2 (by omega)
    refine ⟨?_, hg.1, hg.2.1⟩
    have h3 := hg.2.2
    rw [if_pos ⟨hm.1, hm.2⟩] at h3
    exact h3
  obtain ⟨body, hbody, hlenbody⟩ :=
    write_tracks_ok d _ (fun p hp => (hregion p hp).1)
  refine ⟨d.comment ++ 26 :: body, by simp [write_imd, hbody], ?_⟩
  rw [read_imd, splitComment_append hc26]
  dsimp only
  have hd0len : ({ init_disk with comment := d.comment } : Disk).tracks.length
      = 512 := by
    simp [init_disk]
  have hloop := read_write_tracks_loop d
    (regionPairs d.num_phys_cyls d.num_phys_heads)
    { init_disk with comment := d.comment } body (body.length + 1)
    (by
      intro p hp
      have hm := regionPairs_mem.mp hp
      obtain ⟨a1, a2, a3⟩ := hregion p hp
      refine ⟨a1, a2, a3, ?_⟩
      rw [getTrack_init d.comment p.1 p.2 (by omega) (by omega)]
      rfl)
    (regionPairs_slot_pairwise d.num_phys_heads hH2 d.num_phys_cyls)
    (by omega)
    hbody
  rw [hloop]
  refine congrArg Except.ok ?_
  -- the resulting disk is exactly `probify d`
  have hcond2 : ∀ p ∈ regionPairs d.num_phys_cyls d.num_phys_heads,
      p.2 < 2 ∧ p.1 * 2 + p.2 <
        ({ init_disk with comment := d.comment } : Disk).tracks.length := by
    intro p hp
    have hm := regionPairs_mem.mp hp
    rw [hd0len]
    omega
  have htracks :
      (applyTracks d { init_disk with comment := d.comment }
        (regionPairs d.num_phys_cyls d.num_phys_heads)).tracks =
      (probify d).tracks := by
    apply List.ext_getElem
    · rw [applyTracks_tracks_length, hd0len]
      simp [probify]
    · intro i hi1 hi2
      have hi512 : i < 512 := by
        rw [applyTracks_tracks_length, hd0len] at hi1
        exact hi1
      have hL :
          (applyTracks d { init_disk with comment := d.comment }
            (regionPairs d.num_phys_cyls d.num_phys_heads)).tracks[i] =
          getTrack (applyTracks d { init_disk with comment := d.comment }
            (regionPairs d.num_phys_cyls d.num_phys_heads)) (i / 2) (i % 2)
          := by
        rw [← getTrack_eq_getD]
        rw [List.getD_eq_getElem?_getD, List.getElem?_eq_getElem hi1]
        rfl
      rw [hL]
      rw [applyTracks_getTrack d _ _ (i / 2) (i % 2) (by omega)
        (regionPairs_slot_pairwise d.num_phys_heads hH2 d.num_phys_cyls)
        hcond2]
      have hR : (probify d).tracks[i] =
          (if i / 2 < d.num_phys_cyls ∧ i % 2 < d.num_phys_heads
           then { d.tracks.getD i (init_track 0 0) with status := .probed }
           else d.tracks.getD i (init_track 0 0)) := by
        simp only [probify]
        rw [List.getElem_map, List.getElem_range]
      rw [hR]
      have hmemiff : ((i / 2, i % 2) ∈
          regionPairs d.num_phys_cyls d.num_phys_heads) ↔
          (i / 2 < d.num_phys_cyls ∧ i % 2 < d.num_phys_heads) :=
        regionPairs_mem
      by_cases hin : i / 2 < d.num_phys_cyls ∧ i % 2 < d.num_phys_heads
      · rw [if_pos (hmemiff.mpr hin), if_pos hin, getTrack_eq_getD]
      · rw [if_neg (fun hmem => hin (hmemiff.mp hmem)), if_neg hin]
        rw [getTrack_init d.comment (i / 2) (i % 2) (by omega) (by omega)]
        rw [getTrack_eq_getD]
        have hg := hgrid (i / 2) (by omega) (i % 2) (by omega)
        have h3 := hg.2.2
        rw [if_neg hin] at h3
        exact h3.symm
  -- assemble the structure equality field by field
  have hcomment :
      (applyTracks d { init_disk with comment := d.comment }
        (regionPairs d.num_phys_cyls d.num_phys_heads)).comment =
      (probify d).comment := by
    rw [applyTracks_comment]
    rfl
  have hnc :
      (applyTracks d { init_disk with comment := d.comment }
        (regionPairs d.num_phys_cyls d.num_phys_heads)).num_phys_cyls =
      (probify d).num_phys_cyls := by
    rw [applyTracks_num_cyls]
    have : ({ init_disk with comment := d.comment } : Disk).num_phys_cyls
        = 0 := rfl
    rw [this, foldl_bumpStepCyl_region d.num_phys_heads hH1 d.num_phys_cyls]
    rfl
  have hnh :
      (applyTracks d { init_disk with comment := d.comment }
        (regionPairs d.num_phys_cyls d.num_phys_heads)).num_phys_heads =
      (probify d).num_phys_heads := by
    rw [applyTracks_num_heads]
    have : ({ init_disk with comment := d.comment } : Disk).num_phys_heads
        = 0 := rfl
    rw [this, foldl_bumpStepHead_region d.num_phys_heads d.num_phys_cyls hC1]
    rfl
  cases happly : applyTracks d { init_disk with comment := d.comment }
    (regionPairs d.num_phys_cyls d.num_phys_heads) with
  | mk acom anc anh atr =>
    rw [happly] at hcomment hnc hnh htracks
    simp only at hcomment hnc hnh htracks
    simp [probify] at hcomment hnc hnh ⊢
    exact ⟨hcomment, hnc, hnh, by simpa [probify] using htracks⟩

/-! ## The track reader (dumpfloppy.cpp, `read_track`) -/

/-- ST2 status bits (linux/fdreg.h): `ST2_CRC = 0x20`, `ST2_CM = 0x40`. -/
def ST2_CM : Nat := 64

/-- The outcome of one `fd_read` of a single sector, as `read_track` branches
on it: success; failure with `ST1 == ST1_CRC` and `ST2 == ST2_CRC` (no other
ST2 bits set, checked by the asserts, except possibly the Control Mark);
or any other failure. -/
inductive ReadOutcome
  | success (buf : Data) (st2 : Nat)
  | failCrc (buf : Data) (st2 : Nat)
  | failOther
deriving DecidableEq, Repr

/-- The per-sector state update of the single-sector branch of `read_track`
(dumpfloppy.cpp).  On success the read is inserted with count 1 when `datas`
was empty, else `UINT32_MAX`; on a CRC failure the read is folded into the
evidence map; on any other failure nothing changes.  `deleted` is set from
`ST2 & ST2_CM` whenever data was obtained. -/
def readSectorStep (sector : Sector) (r : ReadOutcome) : Sector :=
  match r with
  | .success buf st2 =>
    let datas := (mapInsert sector.datas buf
      (if sector.datas.isEmpty then 1 else UINT32MAX)).1
    { sector with
      status := .good, datas := datas,
      deleted := decide (st2 / 64 % 2 = 1) }
  | .failCrc buf st2 =>
    let datas := match mapFind sector.datas buf with
      | none => (mapInsert sector.datas buf 1).1
      | some c => mapSet sector.datas buf (if c ≠ UINT32MAX then c + 1 else c)
    { sector with
      status := .bad, datas := datas,
      deleted := decide (st2 / 64 % 2 = 1) }
  | .failOther => sector

/-- The whole-track fast-path update of `read_track`: the sector's evidence
is discarded and replaced by the single good read with count 1. -/
def readSectorWholeTrack (sector : Sector) (slice : Data) : Sector :=
  { sector with status := .good, datas := [(slice, 1)], deleted := false }

/-! ## The track prober (dumpfloppy.cpp, `track_readid` / `probe_track`) -/

/-- The reply bytes of a successful READ-ID:
`reply[3]`–`reply[6]` are logical cylinder, head, sector, and size code. -/
structure ReadidReply where
  r_cyl : Nat
  r_head : Nat
  r_sec : Nat
  r_size : Nat
deriving DecidableEq, Repr

/-- The prober state: the collected sectors (the meaningful prefix of the
`sectors` array, `num_sectors` is its length) and the track's
`sector_size_code` (`UCHAR_MAX = 255` is the unset sentinel). -/
structure ProbeState where
  sectors : List Sector
  sector_size_code : Nat
deriving DecidableEq, Repr

/-- The result of one `track_readid` call on a scripted reply stream:
`die`, a NULL return (`fd_readid` failed), a collected sector, or the end of
the script (the modelling artifact for a run longer than the script). -/
inductive ReadidStep
  | die (msg : String)
  | noid
  | ok (sec : Sector) (st : ProbeState) (rest : List (Option ReadidReply))
  | out
deriving DecidableEq, Repr

/-- The ignore-sector skip loop of `track_readid`
(`do { ... } while (args.ignore_sector == cmd.reply[5])`).
`none` in the script is a failed `fd_readid`.  The new sector starts from the
free slot (`assert_free_sector` holds trivially: the slot beyond
`num_sectors` is still `init_sector`). -/
def readidLoop (ignore : Option Nat) (st : ProbeState) :
    List (Option ReadidReply) → ReadidStep
  | [] => .out
  | r :: rest =>
    match r with
    | none => .noid
    | some reply =>
      if ignore = some reply.r_sec then readidLoop ignore st rest
      else
        let sector : Sector :=
          { init_sector with
            log_cyl := reply.r_cyl,
            log_head := reply.r_head, log_sector := reply.r_sec }
        -- assert(cmd.reply[6] != UCHAR_MAX)
        if reply.r_size = 255 then
          .die "assert failed: reply size code != UCHAR_MAX"
        else if st.sector_size_code = 255 then
          .ok sector
            { sectors := st.sectors ++ [sector],
              sector_size_code := reply.r_size } rest
        else if st.sector_size_code ≠ reply.r_size then
          .die "mixed sector formats within track"
        else
          .ok sector
            { sectors := st.sectors ++ [sector],
              sector_size_code := st.sector_size_code } rest

/-- `track_readid`: the entry guard
`if (track->num_sectors == MAX_SECS-1) die(...)`, then the skip loop. -/
def track_readid (ignore : Option Nat) (st : ProbeState)
    (s : List (Option ReadidReply)) : ReadidStep :=
  if st.sectors.length = 255 then .die "track_readid read too many sectors"
  else readidLoop ignore st s

/-- The possible exits of the ID-collection loop of `probe_track`. -/
inductive CollectResult
  | collected (st : ProbeState)
  | readidFailed
  | tooLong
  | died (msg : String)
  | out
deriving DecidableEq, Repr

/-- The `seen_all` scan of `probe_track`:
`for i: if (seen_secs[i] != 0 && seen_secs[i] < min_seen) seen_all = false`
with `min_seen = 3`. -/
def seenAll (seen : List Nat) : Bool :=
  (List.range 256).all (fun i => !(seen.getD i 0 ≠ 0 && seen.getD i 0 < 3))

/-- The ID-collection loop of `probe_track` (dumpfloppy.cpp).  Note that the
source declares `int count = 0` and tests `count > max_count` but never
increments `count`; the transliteration therefore passes `count` through
unchanged, exactly as the source does.  `fuel` only bounds the recursion
(each iteration consumes at least one scripted reply). -/
def collectLoop (ignore : Option Nat) :
    Nat → ProbeState → List Nat → Nat → List (Option ReadidReply) →
    CollectResult
  | 0, _, _, _, _ => .out
  | fuel + 1, st, seen_secs, count, s =>
    match track_readid ignore st s with
    | .out => .out
    | .die msg => .died msg
    | .noid => .readidFailed
    | .ok sec st2 rest =>
      let seen2 := seen_secs.set sec.log_sector
        (seen_secs.getD sec.log_sector 0 + 1)
      if seenAll seen2 then .collected st2
      else if 100 < count then .tooLong
      else collectLoop ignore fuel st2 seen2 count rest

/-- The search for the repeat of the first sector in `probe_track`
(`end_pos` starts at 1 and the bound check follows the increment; the access
`sectors[end_pos]` with `end_pos ≥ num_sectors` — possible only when
`num_sectors ≤ 1` — reads past the meaningful prefix in the source and is
treated as a failed probe here). -/
def findRepeat (sectors : List Sector) (end_pos : Nat) : Option Nat :=
  if h : sectors.length ≤ end_pos then none
  else if same_sector_addr (sectors.getD 0 init_sector)
      (sectors.getD end_pos init_sector) then some end_pos
  else if end_pos + 1 = sectors.length then none
  else findRepeat sectors (end_pos + 1)
termination_by sectors.length - end_pos
decreasing_by omega

/-- The consistent-repetition check of `probe_track`:
`for pos in end_pos..num_sectors: same(sectors[pos % end_pos], sectors[pos])`. -/
def checkRepeat (sectors : List Sector) (e : Nat) : Bool :=
  ((List.range (sectors.length - e)).map (fun k => e + k)).all (fun pos =>
    same_sector_addr (sectors.getD (pos % e) init_sector)
      (sectors.getD pos init_sector))

/-- Steps 5 and 6 of the prober: find the smallest repeat position, verify
the suffix, and return the track length (`num_sectors` is cut to it). -/
def extractCycle (sectors : List Sector) : Option Nat :=
  match findRepeat sectors 1 with
  | none => none
  | some e => if checkRepeat sectors e then some e else none

/-! ## The flattener (imdcat.cpp, `write_flat`) -/

/-- The `(cyl, head, sec)` key of the flat image map. -/
abbrev SHC : Type := Nat × Nat × Nat

/-- `SHC_t::operator<`: lexicographic on cylinder, head, sector. -/
def shcLt (a b : SHC) : Bool :=
  if a.1 < b.1 then true
  else if b.1 < a.1 then false
  else if a.2.1 < b.2.1 then true
  else if b.2.1 < a.2.1 then false
  else if a.2.2 < b.2.2 then true
  else false

/-- `std::map<SHC_t, data_t>` as a list sorted by `shcLt`;
`operator[]` assignment overwrites an existing key. -/
def imageInsert (k : SHC) (v : Data) :
    List (SHC × Data) → List (SHC × Data)
  | [] => [(k, v)]
  | (k0, v0) :: rest =>
    if shcLt k k0 then (k, v) :: (k0, v0) :: rest
    else if shcLt k0 k then (k0, v0) :: imageInsert k v rest
    else (k0, v) :: rest

/-- `disk_image.find`. -/
def imageFind (k : SHC) : List (SHC × Data) → Option Data
  | [] => none
  | (k0, v0) :: rest => if k0 = k then some v0 else imageFind k rest

/-- `update_range`: widen a half-open range to cover `value`. -/
def update_range (value : Nat) (r : Nat × Nat) : Nat × Nat :=
  (if value < r.1 then value else r.1,
   if r.2 ≤ value then value + 1 else r.2)

/-- `apply_range_option`: a command-line override (`-1` = unset is `none`)
replaces the corresponding autodetected bound. -/
def apply_range_option (inr : Option Nat × Option Nat) (outr : Nat × Nat) :
    Nat × Nat :=
  (inr.1.getD outr.1, inr.2.getD outr.2)

/-- The half-open range as a list, `for_range`. -/
def rangeList (r : Nat × Nat) : List Nat :=
  (List.range (r.2 - r.1)).map (fun k => r.1 + k)

/-- The default-choice scan of `write_flat`: `default_iter` starts at the
first entry and is replaced whenever an entry's count strictly exceeds the
current default's count; `data_id` is its position. -/
def defaultDataIdAux : DataMap → Nat → Nat → Nat → Nat
  | [], _, best, _ => best
  | (_, cnt) :: rest, i, best, bestCnt =>
    if bestCnt < cnt then defaultDataIdAux rest (i + 1) i cnt
    else defaultDataIdAux rest (i + 1) best bestCnt

/-- The position of the first entry of maximal count (0 for an empty map,
which the source never queries here). -/
def defaultDataId (m : DataMap) : Nat :=
  defaultDataIdAux m 0 0 ((m.getD 0 ([], 0)).2)

/-- The command-line arguments of `imdcat` that `write_flat` reads. -/
structure FlatArgs where
  in_cyls : Nat × Nat
  in_heads : Nat × Nat
  in_sectors : Nat × Nat
  out_cyls : Option Nat × Option Nat
  out_heads : Option Nat × Option Nat
  out_sectors : Option Nat × Option Nat
  permissive : Bool
deriving DecidableEq, Repr

/-- The defaults set up in `main`. -/
def defaultFlatArgs : FlatArgs :=
  { in_cyls := (0, 256), in_heads := (0, 2), in_sectors := (0, 256),
    out_cyls := (none, none), out_heads := (none, none),
    out_sectors := (none, none), permissive := false }

/-- The mutable locals of phase 1 of `write_flat`:
the autodetected output ranges, the first seen size code (`-1` = `none`),
and the image map being filled. -/
structure FlatState where
  out_cyls : Nat × Nat
  out_heads : Nat × Nat
  out_sectors : Nat × Nat
  size_code : Option Nat
  image : List (SHC × Data)
deriving DecidableEq, Repr

/-- The initial phase-1 state (`{MAX_CYLS, 0}` etc. are empty ranges). -/
def initFlatState : FlatState :=
  { out_cyls := (256, 0), out_heads := (2, 0), out_sectors := (256, 0),
    size_code := none, image := [] }

/-- One sector of phase 1 of `write_flat`.  `pick SHC` is the operator's
answer at the data-id prompt for that slot: `none` is a blank line (take the
default); the prompt loop in the source repeats until the answer is below
`datas.size()`, so an out-of-range oracle answer stands for an eventual
blank line and also takes the default.  The `assert` on the stored length
aborts the process, modelled as an error. -/
def flatSector (args : FlatArgs) (pick : SHC → Option Nat)
    (cyl head tsc : Nat) (st : FlatState) (sector : Sector) :
    Except String FlatState :=
  let sec := sector.log_sector
  if sec < args.in_sectors.1 ∨ args.in_sectors.2 ≤ sec then .ok st
  else
    let oc := update_range cyl st.out_cyls
    let oh := update_range head st.out_heads
    let os := update_range sec st.out_sectors
    if sector.status = .missing then
      .ok { st with out_cyls := oc, out_heads := oh, out_sectors := os }
    else
      let key : SHC := (cyl, head, sec)
      if (imageFind key st.image).isSome ∧ args.permissive = false then
        .error "Two sectors found"
      else
        let data_id :=
          if sector.datas.length ≠ 1 then
            match pick key with
            | none => defaultDataId sector.datas
            | some k =>
              if k < sector.datas.length then k
              else defaultDataId sector.datas
          else 0
        let chosen := (sector.datas.getD data_id ([], 0)).1
        if chosen.length ≠ sector_bytes tsc then
          .error "assert failed: flat data length"
        else
          .ok { out_cyls := oc, out_heads := oh, out_sectors := os,
                size_code := some (st.size_code.getD tsc),
                image := imageInsert key chosen st.image }

/-- Phase 1 over one track: the loop over `phys_sec < track.num_sectors`
(a size-code mismatch with an earlier track only prints a warning). -/
def flatTrack (args : FlatArgs) (pick : SHC → Option Nat)
    (cyl head : Nat) (st : FlatState) (track : Track) :
    Except String FlatState :=
  track.sectors.foldlM (flatSector args pick cyl head track.sector_size_code)
    st

/-- Phase 1 of `write_flat`: the `for_range` loops over input cylinders and
heads. -/
def flatPhase1 (disk : Disk) (args : FlatArgs) (pick : SHC → Option Nat) :
    Except String FlatState :=
  (rangeList args.in_cyls).foldlM (fun st cyl =>
    (rangeList args.in_heads).foldlM (fun st head =>
      flatTrack args pick cyl head st (getTrack disk cyl head)) st)
    initFlatState

/-- `sector_bytes(size_code)` with the `-1` sentinel: the source would shift
by a negative amount, which never happens when at least one sector was
stored; 0 stands for that undefined case. -/
def flatSizeBytes : Option Nat → Nat
  | none => 0
  | some v => sector_bytes v

/-- Phase 2 of `write_flat`: for each `(cyl, head, sec)` of the output
ranges in row-major order, the stored payload or the all-0xFF dummy.  The
phase-1 `assert` makes every stored payload exactly `sector_bytes` of its
own track's size code long, which is what `fwrite` emits when the size
codes agree. -/
def flatOutput (image : List (SHC × Data)) (oc oh os : Nat × Nat)
    (dummy : Data) : List Nat :=
  (rangeList oc).flatMap (fun cyl =>
    (rangeList oh).flatMap (fun head =>
      (rangeList os).flatMap (fun sec =>
        match imageFind (cyl, head, sec) image with
        | some dta => dta
        | none => dummy)))

/-- `write_flat` (imdcat.cpp): phase 1, the range overrides, then phase 2. -/
def write_flat (disk : Disk) (args : FlatArgs) (pick : SHC → Option Nat) :
    Except String (List Nat) :=
  match flatPhase1 disk args pick with
  | .error e => .error e
  | .ok st =>
    let oc := apply_range_option args.out_cyls st.out_cyls
    let oh := apply_range_option args.out_heads st.out_heads
    let os := apply_range_option args.out_sectors st.out_sectors
    let dummy : Data := List.replicate (flatSizeBytes st.size_code) 255
    .ok (flatOutput st.image oc oh os dummy)

/-! ## Further map lemmas -/

/-- Inserting a fresh key makes it findable with its value. -/
theorem mapFind_mapInsert_self {m : DataMap} {k : Data} {v : Nat}
    (h : mapFind m k = none) : mapFind (mapInsert m k v).1 k = some v := by
  induction m with
  | nil => simp [mapInsert, mapFind, dataLt_irrefl]
  | cons e rest ih =>
    obtain ⟨k0, v0⟩ := e
    by_cases h1 : dataLt k k0 = true
    · simp [mapInsert, h1, mapFind, dataLt_irrefl]
    · by_cases h2 : dataLt k0 k = true
      · rw [Bool.not_eq_true] at h1
        simp only [mapFind, h1, h2, if_true, Bool.false_eq_true, if_false] at h
        simp [mapInsert, h1, h2, mapFind, ih h]
      · rw [Bool.not_eq_true] at h1 h2
        simp [mapFind, h1, h2] at h

/-- Inserting one key leaves every other key's lookup unchanged. -/
theorem mapFind_mapInsert_other {m : DataMap} {k k2 : Data} {v : Nat}
    (hne : k2 ≠ k) : mapFind (mapInsert m k v).1 k2 = mapFind m k2 := by
  induction m with
  | nil =>
    rcases dataLt_trichotomy k2 k with h | h | h
    · simp [mapInsert, mapFind, h, dataLt_asymm h]
    · exact absurd h hne
    · simp [mapInsert, mapFind, h, dataLt_asymm h]
  | cons e rest ih =>
    obtain ⟨k0, v0⟩ := e
    by_cases h1 : dataLt k k0 = true
    · rcases dataLt_trichotomy k2 k with h | h | h
      · have h3 := dataLt_trans h h1
        simp [mapInsert, h1, mapFind, h, dataLt_asymm h, h3]
      · exact absurd h hne
      · simp only [mapInsert, h1, if_true, mapFind, dataLt_asymm h, h,
          Bool.false_eq_true, if_false, if_true]
    · by_cases h2 : dataLt k0 k = true
      · simp [mapInsert, h1, h2, mapFind, ih]
      · rw [Bool.not_eq_true] at h1 h2
        simp [mapInsert, h1, h2, mapFind]

/-- An insertion result is never the empty map. -/
theorem mapInsert_ne_nil (m : DataMap) (k : Data) (v : Nat) :
    (mapInsert m k v).1 ≠ [] := by
  cases m with
  | nil => simp [mapInsert]
  | cons e rest =>
    obtain ⟨k0, v0⟩ := e
    by_cases h1 : dataLt k k0 = true <;> by_cases h2 : dataLt k0 k = true <;>
      simp [mapInsert, h1, h2]

/-- A found key means the map is not empty. -/
theorem mapFind_some_ne_nil {m : DataMap} {k : Data} {c : Nat}
    (h : mapFind m k = some c) : m ≠ [] := by
  cases m with
  | nil => simp [mapFind] at h
  | cons e rest => simp

/-- Overwriting a value does not change the number of entries. -/
theorem mapSet_length (m : DataMap) (k : Data) (v : Nat) :
    (mapSet m k v).length = m.length := by
  induction m with
  | nil => rfl
  | cons e rest ih =>
    obtain ⟨k0, v0⟩ := e
    by_cases h1 : dataLt k k0 = true <;> by_cases h2 : dataLt k0 k = true <;>
      simp [mapSet, h1, h2, ih]

/-- Overwriting a value does not change the key sequence. -/
theorem mapSet_keys (m : DataMap) (k : Data) (v : Nat) :
    (mapSet m k v).map Prod.fst = m.map Prod.fst := by
  induction m with
  | nil => rfl
  | cons e rest ih =>
    obtain ⟨k0, v0⟩ := e
    by_cases h1 : dataLt k k0 = true <;> by_cases h2 : dataLt k0 k = true <;>
      simp [mapSet, h1, h2, ih]

/-- `sortedKeys` only looks at the key sequence. -/
theorem sortedKeys_of_keys_eq : ∀ {m1 m2 : DataMap},
    m1.map Prod.fst = m2.map Prod.fst → sortedKeys m1 = sortedKeys m2 := by
  intro m1
  induction m1 with
  | nil =>
    intro m2 h
    cases m2 with
    | nil => rfl
    | cons f r2 => simp at h
  | cons e r1 ih =>
    intro m2 h
    cases m2 with
    | nil => simp at h
    | cons f r2 =>
      obtain ⟨a1, b1⟩ := e
      obtain ⟨a2, b2⟩ := f
      simp only [List.map_cons, List.cons.injEq] at h
      cases r1 with
      | nil =>
        cases r2 with
        | nil => rfl
        | cons g r2 => simp at h
      | cons e1 r1 =>
        cases r2 with
        | nil => simp at h
        | cons f1 r2 =>
          obtain ⟨a3, b3⟩ := e1
          obtain ⟨a4, b4⟩ := f1
          simp only [List.map_cons, List.cons.injEq] at h
          obtain ⟨h1, h2, h3⟩ := h
          subst h1
          subst h2
          have htl := ih
            (show List.map Prod.fst ((a3, b3) :: r1) =
              List.map Prod.fst ((a3, b4) :: r2) by simp [h3])
          simp only [sortedKeys, htl]

/-- Overwriting a value keeps the map sorted (or unsorted) as it was. -/
theorem sortedKeys_mapSet (m : DataMap) (k : Data) (v : Nat) :
    sortedKeys (mapSet m k v) = sortedKeys m :=
  sortedKeys_of_keys_eq (mapSet_keys m k v)

/-! ## The amended sector data invariant -/

/-- The corrected per-sector invariant: `datas` is empty exactly for a
MISSING sector, a GOOD or BAD sector holds at least one read, and only a
non-MISSING sector can be deleted.  (The original claim's "GOOD has exactly
one entry" is refuted by `claim_C3_counterexample`.) -/
def SectorDataInv (sec : Sector) : Prop :=
  (sec.datas.isEmpty = true ↔ sec.status = .missing) ∧
  (sec.status = .good → 1 ≤ sec.datas.length) ∧
  (sec.status = .bad → 1 ≤ sec.datas.length) ∧
  (sec.deleted = true → sec.status ≠ .missing)

instance (sec : Sector) : Decidable (SectorDataInv sec) := by
  unfold SectorDataInv
  infer_instance

/-! ## Claims C3 and C6: the single-sector read step -/

/-- A non-empty list has length at least one. -/
theorem one_le_length_of_ne_nil {α : Type} {l : List α} (h : l ≠ []) :
    1 ≤ l.length := by
  cases l with
  | nil => exact absurd rfl h
  | cons a t => simp

/-- A sector holding one bad read of the byte string `[1]` with count 3, as
three CRC-failing reads of the same data leave it. -/
def c6sector : Sector :=
  { init_sector with status := .bad, datas := [([1], 3)] }

/-- Claim C3, counterexample.  A first read fails its CRC (the sector
becomes BAD with one stored read), a retry then succeeds with different
bytes: `read_track` marks the sector GOOD while keeping the prior entry, so
a GOOD sector holds two `datas` entries — refuting "if status is GOOD then
datas contains exactly one entry". -/
theorem claim_C3_counterexample :
    (readSectorStep (readSectorStep init_sector (.failCrc [1] 0))
      (.success [2] 0)).status = .good ∧
    (readSectorStep (readSectorStep init_sector (.failCrc [1] 0))
      (.success [2] 0)).datas.length = 2 := by
  decide

/-- Claim C6.  First conjunct: when a single-sector read succeeds and the
newly read byte string differs from every stored read, the sector becomes
GOOD, the new data is stored with count `UINT32_MAX` (the map was
non-empty), and every other entry is preserved.  Second and third
conjuncts: the divergence — when the newly read byte string is identical to
a stored bad read (`c6sector` holds `[1]` with count 3), `std::map::insert`
is a no-op, so the count stays 3 instead of becoming `UINT32_MAX`,
refuting "this holds for every possible newly read byte string, including
one identical to a previously stored bad read". -/
theorem claim_C6 :
    (∀ (sec : Sector) (buf : Data) (st2 : Nat),
      sec.datas ≠ [] → mapFind sec.datas buf = none →
      (readSectorStep sec (.success buf st2)).status = .good ∧
      mapFind (readSectorStep sec (.success buf st2)).datas buf
        = some UINT32MAX ∧
      ∀ k, k ≠ buf →
        mapFind (readSectorStep sec (.success buf st2)).datas k
          = mapFind sec.datas k) ∧
    (readSectorStep c6sector (.success [1] 0)).status = .good ∧
    mapFind (readSectorStep c6sector (.success [1] 0)).datas [1] = some 3 := by
  refine ⟨?_, by decide, by decide⟩
  intro sec buf st2 hne hnf
  have hemp : sec.datas.isEmpty = false := by
    simpa [List.isEmpty_eq_false] using hne
  refine ⟨by simp [readSectorStep], ?_, ?_⟩
  · simp only [readSectorStep, hemp]
    simpa using mapFind_mapInsert_self hnf
  · intro k hk
    simp only [readSectorStep, hemp]
    simpa using mapFind_mapInsert_other hk

/-- Witness for claim C6 at a concrete non-empty sector and fresh data. -/
theorem claim_C6_witness :
    (readSectorStep c6sector (.success [2] 0)).status = .good ∧
    mapFind (readSectorStep c6sector (.success [2] 0)).datas [2]
      = some UINT32MAX ∧
    ∀ k, k ≠ [2] →
      mapFind (readSectorStep c6sector (.success [2] 0)).datas k
        = mapFind c6sector.datas k :=
  claim_C6.1 c6sector [2] 0 (by decide) (by decide)

/-! ## Claim C4: the ID-collection loop of the prober -/

/-- A READ-ID script that returns a fresh logical sector id on every
revolution poll: the seen-three-times stop condition never holds. -/
def c4distinct : List (Option ReadidReply) :=
  (List.range 300).map (fun i => some ⟨0, 0, i, 2⟩)

/-- A READ-ID script of two alternating sector ids, each seen three times
after six polls. -/
def c4ok : List (Option ReadidReply) :=
  [some ⟨0, 0, 0, 2⟩, some ⟨0, 0, 1, 2⟩, some ⟨0, 0, 0, 2⟩,
   some ⟨0, 0, 1, 2⟩, some ⟨0, 0, 0, 2⟩, some ⟨0, 0, 1, 2⟩]

/-- The sector `track_readid` builds from the reply `(0, 0, i, 2)`. -/
def c4sec (i : Nat) : Sector :=
  { init_sector with log_cyl := 0, log_head := 0, log_sector := i }

/-- Claim C4.  First conjunct: the source's 100-ID failure cap can never
fire — `int count = 0` is tested (`count > max_count`) but never
incremented, so from any start value of at most 100 the loop never returns
the too-long failure.  Second conjunct: the stop condition itself works —
two alternating ids are collected until each has been seen three times.
Third conjunct: with ids that never repeat, instead of failing after 100
IDs the loop runs until the sector array is full and `die`s, aborting the
process — refuting "if more than 100 IDs are collected without reaching
that condition, the probe is treated as a failure (returns false rather
than looping forever or aborting the process)". -/
theorem claim_C4 :
    (∀ (ignore : Option Nat) (fuel : Nat) (st : ProbeState)
      (seen : List Nat) (count : Nat) (s : List (Option ReadidReply)),
      count ≤ 100 →
      collectLoop ignore fuel st seen count s ≠ .tooLong) ∧
    collectLoop none 7 ⟨[], 255⟩ (List.replicate 256 0) 0 c4ok =
      .collected ⟨[c4sec 0, c4sec 1, c4sec 0, c4sec 1, c4sec 0, c4sec 1], 2⟩ ∧
    collectLoop none 300 ⟨[], 255⟩ (List.replicate 256 0) 0 c4distinct =
      .died "track_readid read too many sectors" := by
  refine ⟨?_, by rfl, by rfl⟩
  intro ignore fuel st seen count s hc
  induction fuel generalizing st seen s with
  | zero => simp [collectLoop]
  | succ fuel ih =>
    rw [collectLoop]
    cases htr : track_readid ignore st s with
    | die msg => simp
    | noid => simp
    | out => simp
    | ok sec st2 rest =>
      dsimp only
      split
      · simp
      · rw [if_neg (by omega)]
        exact ih st2 _ rest

/-- Witness for claim C4: the never-too-long statement at a concrete
input. -/
theorem claim_C4_witness :
    collectLoop none 3 ⟨[], 255⟩ (List.replicate 256 0) 0 c4ok ≠ .tooLong :=
  claim_C4.1 none 3 ⟨[], 255⟩ (List.replicate 256 0) 0 c4ok (by decide)

/-! ## Claim C5: cycle extraction -/

theorem same_sector_addr_refl (s : Sector) : same_sector_addr s s = true := by
  simp [same_sector_addr]

/-- `getD` through `(List.range N).map f`. -/
theorem getD_range_map {α : Type} (f : Nat → α) (N i : Nat) (d : α)
    (h : i < N) : ((List.range N).map f).getD i d = f i := by
  rw [List.getD_eq_getElem?_getD]
  simp [List.getElem?_map, List.getElem?_range, h]

/-- `findRepeat` stops at a position whose sector matches the first. -/
theorem findRepeat_found {sectors : List Sector} {e : Nat}
    (he : e < sectors.length)
    (hsame : same_sector_addr (sectors.getD 0 init_sector)
      (sectors.getD e init_sector) = true) :
    findRepeat sectors e = some e := by
  rw [findRepeat, dif_neg (by omega), if_pos hsame]

/-- `findRepeat` walks past a position whose sector does not match the
first. -/
theorem findRepeat_step {sectors : List Sector} {e : Nat}
    (he : e + 1 < sectors.length)
    (hdiff : same_sector_addr (sectors.getD 0 init_sector)
      (sectors.getD e init_sector) = false) :
    findRepeat sectors e = findRepeat sectors (e + 1) := by
  rw [findRepeat]
  rw [dif_neg (by omega)]
  simp only [hdiff, Bool.false_eq_true, if_false]
  rw [if_neg (by omega)]

/-- Claim C5.  First conjunct: for a collected ID list that is the periodic
extension of a track of true length `L` (the first sector's logical address
does not recur within one revolution) with at least `2L` entries, cycle
extraction returns exactly `L`.  Second conjunct: whenever cycle extraction
returns a length, every later entry matches the entry at its position
modulo that length — so any suffix mismatch makes the probe fail. -/
theorem claim_C5 :
    (∀ (base : List Sector) (L N : Nat), base.length = L → 1 ≤ L →
      2 * L ≤ N →
      (∀ i, 1 ≤ i → i < L →
        same_sector_addr (base.getD 0 init_sector)
          (base.getD i init_sector) = false) →
      extractCycle ((List.range N).map
        (fun i => base.getD (i % L) init_sector)) = some L) ∧
    (∀ (sectors : List Sector) (e : Nat), extractCycle sectors = some e →
      ∀ pos, e ≤ pos → pos < sectors.length →
        same_sector_addr (sectors.getD (pos % e) init_sector)
          (sectors.getD pos init_sector) = true) := by
  constructor
  · intro base L N hbl hL hN hno
    have hslen : ((List.range N).map
        (fun i => base.getD (i % L) init_sector)).length = N := by simp
    have hget : ∀ i, i < N → ((List.range N).map
        (fun i => base.getD (i % L) init_sector)).getD i init_sector =
        base.getD (i % L) init_sector :=
      fun i hi => getD_range_map _ N i _ hi
    have climb : ∀ j, j ≤ L - 1 → findRepeat ((List.range N).map
        (fun i => base.getD (i % L) init_sector)) (L - j) = some L := by
      intro j
      induction j with
      | zero =>
        intro _
        rw [Nat.sub_zero]
        apply findRepeat_found (by rw [hslen]; omega)
        rw [hget 0 (by omega), hget L (by omega), Nat.zero_mod, Nat.mod_self]
        exact same_sector_addr_refl _
      | succ j ihj =>
        intro hj
        rw [findRepeat_step (by rw [hslen]; omega) ?hdiff]
        case hdiff =>
          rw [hget 0 (by omega), hget (L - (j + 1)) (by omega), Nat.zero_mod,
            Nat.mod_eq_of_lt (by omega)]
          exact hno (L - (j + 1)) (by omega) (by omega)
        rw [show L - (j + 1) + 1 = L - j by omega]
        exact ihj (by omega)
    have hfr := climb (L - 1) (le_refl _)
    rw [show L - (L - 1) = 1 by omega] at hfr
    have hcr : checkRepeat ((List.range N).map
        (fun i => base.getD (i % L) init_sector)) L = true := by
      rw [checkRepeat, List.all_eq_true]
      intro pos hpos
      rw [List.mem_map] at hpos
      obtain ⟨k, hk, rfl⟩ := hpos
      rw [List.mem_range, hslen] at hk
      have hmlt : (L + k) % L < L := Nat.mod_lt _ (by omega)
      rw [hget (L + k) (by omega), hget ((L + k) % L) (by omega),
        Nat.mod_mod_of_dvd _ dvd_rfl]
      exact same_sector_addr_refl _
    rw [extractCycle, hfr]
    dsimp only
    rw [if_pos hcr]
  · intro sectors e hex pos hple hpos
    rw [extractCycle] at hex
    cases hfr : findRepeat sectors 1 with
    | none => rw [hfr] at hex; cases hex
    | some e0 =>
      rw [hfr] at hex
      dsimp only at hex
      by_cases hcr : checkRepeat sectors e0 = true
      · rw [if_pos hcr] at hex
        injection hex with he0
        rw [← he0] at hple ⊢
        rw [checkRepeat, List.all_eq_true] at hcr
        apply hcr
        rw [List.mem_map]
        exact ⟨pos - e0, by rw [List.mem_range]; omega, by omega⟩
      · rw [if_neg hcr] at hex
        cases hex

/-- Witness for claim C5: a two-sector track polled for two revolutions. -/
theorem claim_C5_witness :
    extractCycle ((List.range 4).map
      (fun i => [c4sec 0, c4sec 1].getD (i % 2) init_sector)) = some 2 :=
  claim_C5.1 [c4sec 0, c4sec 1] 2 4 (by decide) (by decide) (by decide)
    (by decide)

/-! ## Claim C7: the variable-sector-size header -/

/-- Claim C7, counterexample.  A track header declaring `num_sectors == 0`
together with `size_code == 0xFF` is accepted: the completely-unreadable
early return at `num_sectors == 0` comes before the `0xFF` check, so the
reader does not fail fatally on this header — refuting "for every IMD track
record whose header carries size_code 0xFF ... the IMD reader fails
fatally ... including the case where the same header declares
num_sectors == 0". -/
theorem claim_C7_counterexample :
    read_imd_track init_disk [5, 0, 0, 0, 255] =
      .ok (some (setTrack
        { init_disk with num_phys_cyls := 1, num_phys_heads := 1 } 0 0
        { status := .probed, data_mode := 5, phys_cyl := 0, phys_head := 0,
          sector_size_code := 255, sectors := [] }, [])) := by
  rfl

/-- Claim C7 (amended).  For every track header that reaches the size-code
check — its mode is known, cylinder and head are in range, no unsupported
flag is set, and `num_sectors` is at least 1 — a `size_code` of 0xFF is
rejected fatally as the unsupported variable-sector-size extension.  (With
`num_sectors == 0` the header is instead accepted by the earlier
completely-unreadable-track return, see `claim_C7_counterexample`.) -/
theorem claim_C7_amended (d : Disk) (m c h2 ns : Nat) (rest : List Nat)
    (hm : DATA_MODES.contains m = true) (hc : c < 256)
    (hf : h2 / 4 % 16 = 0) (hh : h2 % 4 < 2) (hns : 1 ≤ ns) :
    read_imd_track d (m :: c :: h2 :: ns :: 255 :: rest) =
      .error "IMD variable sector size extension not supported" := by
  simp only [read_imd_track]
  rw [readBytes5]
  dsimp only
  rw [if_neg (by omega)]
  rw [if_neg (by omega)]
  rw [if_neg (by omega)]
  rw [if_neg (by rw [hm]; decide)]
  rw [if_neg (by omega)]
  rw [if_pos rfl]

/-- Witness for claim C7 at a concrete header. -/
theorem claim_C7_witness :
    read_imd_track init_disk [5, 0, 0, 1, 255] =
      .error "IMD variable sector size extension not supported" :=
  claim_C7_amended init_disk 5 0 0 1 [] (by decide) (by decide) (by decide)
    (by decide) (by decide)

/-! ## Claim C8: the flattener's output order -/

/-- The `(cyl, head, sec)` triples of the output ranges in row-major
(lexicographic) order. -/
def tripleRowMajor (oc oh os : Nat × Nat) : List SHC :=
  (rangeList oc).flatMap (fun cyl =>
    (rangeList oh).flatMap (fun head =>
      (rangeList os).map (fun sec => (cyl, head, sec))))

/-- 128-byte sector payloads for the claim C8 scenario. -/
def c8payload (i : Nat) : Data := List.replicate 128 i

/-- A good sector with logical id `s` holding `c8payload s` once. -/
def c8good (s : Nat) : Sector :=
  { init_sector with
    status := .good, log_cyl := 0, log_head := 0, log_sector := s,
    datas := [(c8payload s, 1)] }

/-- The track of 10 sectors with IDs 1..10 where the sector with ID 5 is
MISSING (size code 0: 128-byte sectors). -/
def c8track : Track :=
  { status := .probed, data_mode := 5, phys_cyl := 0, phys_head := 0,
    sector_size_code := 0,
    sectors := (List.range 10).map (fun i =>
      if i = 4 then { init_sector with log_sector := 5 } else c8good (i + 1)) }

/-- The claim C8 disk: `c8track` at cylinder 0 head 0. -/
def c8disk : Disk := setTrack init_disk 0 0 c8track

/-- Claim C8.  First conjunct: phase 2 of `write_flat` emits exactly the
row-major sequence of slots, each either its stored payload or the dummy
buffer.  Second conjunct: the dummy (and every slot) is
`128 * 2 ^ size_code` bytes (`sector_bytes`).  Third conjunct: `write_flat`
applies the output-range overrides and emits phase 2 over the final ranges
with an all-0xFF dummy of that size.  Fourth conjunct: the concrete
scenario — a track of 10 sectors with IDs 1..10, sector 5 MISSING, default
auto-ranges — flattens to payloads 1..10 in order with slot 5 filled with
0xFF bytes. -/
theorem claim_C8 :
    (∀ (image : List (SHC × Data)) (oc oh os : Nat × Nat) (dummy : Data),
      flatOutput image oc oh os dummy =
        (tripleRowMajor oc oh os).flatMap
          (fun k => (imageFind k image).getD dummy)) ∧
    (∀ v, sector_bytes v = 128 * 2 ^ v) ∧
    (∀ (disk : Disk) (args : FlatArgs) (pick : SHC → Option Nat)
      (st : FlatState), flatPhase1 disk args pick = .ok st →
      write_flat disk args pick = .ok (flatOutput st.image
        (apply_range_option args.out_cyls st.out_cyls)
        (apply_range_option args.out_heads st.out_heads)
        (apply_range_option args.out_sectors st.out_sectors)
        (List.replicate (flatSizeBytes st.size_code) 255))) ∧
    write_flat c8disk defaultFlatArgs (fun _ => none) =
      .ok (((List.range 10).map (fun k => 1 + k)).flatMap
        (fun s => if s = 5 then List.replicate 128 255 else c8payload s)) := by
  refine ⟨?_, ?_, ?_, ?_⟩
  · intro image oc oh os dummy
    simp only [flatOutput, tripleRowMajor, List.flatMap_assoc,
      List.flatMap_map, Function.comp]
    refine List.flatMap_congr (fun cyl _ => ?_)
    refine List.flatMap_congr (fun head _ => ?_)
    refine List.flatMap_congr (fun sec _ => ?_)
    cases imageFind (cyl, head, sec) image <;> rfl
  · intro v
    simp [sector_bytes, Nat.shiftLeft_eq]
  · intro disk args pick st hp
    simp only [write_flat, hp]
  · rfl

/-! ## Claim C1: the SDR type byte is a sum, decoded by subtraction -/

/-- The spec's arithmetic encoding of a first-record SDR type byte (section
6.2): `0x01` DATA plus `0x10` HAS-COUNT, `0x08` ANOTHER-FOLLOWS, `0x04`
IS-ERROR, `0x02` IS-DELETED, `0x01` IS-COMPRESSED. -/
def sdrType (hc an er de co : Bool) : Nat :=
  1 + (if hc then 16 else 0) + (if an then 8 else 0) + (if er then 4 else 0)
    + (if de then 2 else 0) + (if co then 1 else 0)

/-- The spec's reading of one first-position record with the flags
`hc an er de co` (section 6.2, written from the spec's words): a big-endian
count when HAS-COUNT (asserted above 1), a fill byte expanded to the sector
size when IS-COMPRESSED and a raw payload otherwise, the payload inserted
with its count (duplicates fatal), BAD exactly when IS-ERROR, deleted
accumulated from IS-DELETED, and the chain continued when
ANOTHER-FOLLOWS. -/
def sdrSpecStep (size fuel : Nat) (sec : Sector) (s : List Nat)
    (hc an er de co : Bool) : Except String (Sector × List Nat) :=
  let countRead : Except String (Nat × List Nat) :=
    if hc then
      match readBytes 4 s with
      | none => .error "Couldn't read IMD data count"
      | some (cb, s2) =>
        if 1 < be4Value cb then .ok (be4Value cb, s2)
        else .error "assert failed: count > 1"
    else .ok (1, s)
  match countRead with
  | .error e => .error e
  | .ok (count, s) =>
    let dataRead : Except String (Data × List Nat) :=
      if co then
        match s with
        | [] => .error "Couldn't read IMD compressed sector data"
        | fill :: s2 => .ok (List.replicate size fill, s2)
      else
        match readBytes size s with
        | none => .error "Couldn't read IMD sector data"
        | some (buf, s2) => .ok (buf, s2)
    match dataRead with
    | .error e => .error e
    | .ok (dta, s) =>
      let ins := mapInsert sec.datas dta count
      if ins.2 = false then .error "unexpected duplicate data"
      else
        let sec2 : Sector :=
          { sec with
            status := if er then .bad else .good,
            deleted := sec.deleted || de, datas := ins.1 }
        if an then readSDRs size fuel false sec2 s
        else .ok (sec2, s)

/-- Claim C1.  First conjunct: a `0x00` type byte leaves the sector as it
is (MISSING stays MISSING) and consumes no payload.  Second conjunct: every
type byte that is the arithmetic sum of DATA and a set of the five flags is
decoded into exactly those flags, in the documented subtraction order (the
32 combinations cover every byte 1..32; in particular HAS-COUNT + IS-ERROR,
`0x15`, is not read as IS-COMPRESSED, which a bitfield decode would do).
Third conjunct: any byte 33 or above leaves a nonzero residue after the
subtraction sequence and the reader fails fatally. -/
theorem claim_C1 :
    (∀ (size fuel : Nat) (first : Bool) (sec : Sector) (s : List Nat),
      readSDRs size (fuel + 1) first sec (0 :: s) = .ok (sec, s)) ∧
    (∀ (size fuel : Nat) (sec : Sector) (s : List Nat)
      (hc an er de co : Bool),
      readSDRs size (fuel + 1) true sec (sdrType hc an er de co :: s) =
        sdrSpecStep size fuel sec s hc an er de co) ∧
    (∀ (size fuel : Nat) (sec : Sector) (s : List Nat) (t : Nat), 33 ≤ t →
      ∃ e, readSDRs size (fuel + 1) true sec (t :: s) = .error e) := by
  refine ⟨?_, ?_, ?_⟩
  · intro size fuel first sec s
    simp [readSDRs]
  · intro size fuel sec s hc an er de co
    cases hc <;> cases an <;> cases er <;> cases de <;> cases co <;>
      simp [readSDRs, readSDRsTail.eq_def, sdrType, sdrSpecStep]
  · intro size fuel sec s t ht
    have ht0 : ¬ (t = 0) := by omega
    have h1 : 16 ≤ t - 1 := by omega
    have h2 : 8 ≤ t - 1 - 16 := by omega
    have h3 : 4 ≤ t - 1 - 16 - 8 := by omega
    have h4 : 2 ≤ t - 1 - 16 - 8 - 4 := by omega
    have h5 : 1 ≤ t - 1 - 16 - 8 - 4 - 2 := by omega
    have h6 : ¬ (t - 1 - 16 - 8 - 4 - 2 - 1 = 0) := by omega
    cases hrb : readBytes 4 s with
    | none =>
      exact ⟨"Couldn't read IMD data count", by simp [readSDRs, ht0, h1, hrb]⟩
    | some p =>
      obtain ⟨cb, s2⟩ := p
      by_cases hbe : 1 < be4Value cb
      · cases s2 with
        | nil =>
          exact ⟨"Couldn't read IMD compressed sector data",
            by simp [readSDRs, readSDRsTail.eq_def, ht0, h1, h2, h3,
              h4, h5, hrb, hbe]⟩
        | cons fill s3 =>
          cases hins : (mapInsert sec.datas (List.replicate size fill)
              (be4Value cb)).2 with
          | false =>
            exact ⟨"unexpected duplicate data",
              by simp [readSDRs, readSDRsTail.eq_def, ht0, h1, h2,
                h3, h4, h5, hrb, hbe, hins]⟩
          | true =>
            exact ⟨"IMD sector has unsupported flags",
              by simp [readSDRs, readSDRsTail.eq_def, ht0, h1, h2,
                h3, h4, h5, h6, hrb, hbe, hins]⟩
      · exact ⟨"assert failed: count > 1",
          by simp [readSDRs, ht0, h1, hrb, hbe]⟩

/-! ## Claim C10: duplicate data in one SDR chain is fatal -/

/-- Sortedness of every sector's data map across a whole disk. -/
def TracksSorted (d : Disk) : Prop :=
  ∀ t ∈ d.tracks, ∀ sec ∈ t.sectors, sortedKeys sec.datas = true

/-- One chain-tail step preserves sortedness, given that the recursive
continuation does. -/
theorem readSDRsTail_sorted (size fuel : Nat)
    (ih : ∀ (first : Bool) (sec : Sector) (s : List Nat) (sec2 : Sector)
      (s2 : List Nat), sortedKeys sec.datas = true →
      readSDRs size fuel first sec s = .ok (sec2, s2) →
      sortedKeys sec2.datas = true)
    (sec : Sector) (s : List Nat) (count : Nat) (another : Bool)
    (status : SectorStatus) (deleted : Bool) (t5 : Nat)
    (hs : sortedKeys sec.datas = true) (sec2 : Sector) (s2 : List Nat)
    (hr : readSDRsTail size fuel sec s count another status deleted t5 =
      .ok (sec2, s2)) :
    sortedKeys sec2.datas = true := by
  rw [readSDRsTail.eq_def] at hr
  dsimp only at hr
  by_cases hco : 1 ≤ t5
  · simp only [hco, if_true] at hr
    cases s with
    | nil => exact absurd hr (by simp)
    | cons fill s3 =>
      dsimp only at hr
      cases hins : (mapInsert sec.datas (List.replicate size fill) count).2
        with
      | false =>
        simp only [hins] at hr
        rw [if_pos trivial] at hr
        exact absurd hr (by simp)
      | true =>
        simp only [hins, Bool.true_eq_false, if_false] at hr
        split at hr
        · exact absurd hr (by simp)
        · split at hr
          · exact ih false _ _ _ _ (mapInsert_sorted hs) hr
          · injection hr with hp
            injection hp with hp1 hp2
            rw [← hp1]
            exact mapInsert_sorted hs
  · simp only [hco, if_false] at hr
    cases hrb : readBytes size s with
    | none =>
      simp only [hrb] at hr
      exact absurd hr (by simp)
    | some p =>
      obtain ⟨buf, s3⟩ := p
      simp only [hrb] at hr
      cases hins : (mapInsert sec.datas buf count).2 with
      | false =>
        simp only [hins] at hr
        rw [if_pos trivial] at hr
        exact absurd hr (by simp)
      | true =>
        simp only [hins, Bool.true_eq_false, if_false] at hr
        split at hr
        · exact absurd hr (by simp)
        · split at hr
          · exact ih false _ _ _ _ (mapInsert_sorted hs) hr
          · injection hr with hp
            injection hp with hp1 hp2
            rw [← hp1]
            exact mapInsert_sorted hs

/-- The non-first-record arm of the chain loop reduces to its tail call
when it does not fail on a late IS-ERROR or IS-DELETED flag. -/
theorem readSDRs_nonfirst_reduce {size fuel : Nat} {sec : Sector}
    {s' : List Nat} {cnt a : Nat} {an : Bool} {sec2 : Sector} {s2 : List Nat}
    (hr : (if 4 ≤ a then
        Except.error "assert failed: type < IMD_SDR_IS_ERROR"
      else if 2 ≤ a then
        Except.error "assert failed: type < IMD_SDR_IS_DELETED"
      else readSDRsTail size fuel sec s' cnt an sec.status sec.deleted a) =
      .ok (sec2, s2)) :
    readSDRsTail size fuel sec s' cnt an sec.status sec.deleted a =
      .ok (sec2, s2) := by
  by_cases h4 : 4 ≤ a
  · rw [if_pos h4] at hr
    exact absurd hr (by simp)
  · rw [if_neg h4] at hr
    by_cases h2 : 2 ≤ a
    · rw [if_pos h2] at hr
      exact absurd hr (by simp)
    · rw [if_neg h2] at hr
      exact hr

/-- The SDR chain only inserts into the data map, so it preserves
sortedness. -/
theorem readSDRs_sorted (size : Nat) : ∀ (fuel : Nat) (first : Bool)
    (sec : Sector) (s : List Nat) (sec2 : Sector) (s2 : List Nat),
    sortedKeys sec.datas = true →
    readSDRs size fuel first sec s = .ok (sec2, s2) →
    sortedKeys sec2.datas = true := by
  intro fuel
  induction fuel with
  | zero =>
    intro first sec s sec2 s2 hs hr
    simp [readSDRs] at hr
  | succ fuel ih =>
    intro first sec s sec2 s2 hs hr
    cases s with
    | nil => simp [readSDRs] at hr
    | cons type0 srest =>
      by_cases h0 : type0 = 0
      · subst h0
        rw [readSDRs.eq_def] at hr
        dsimp only at hr
        rw [if_pos rfl] at hr
        injection hr with hp
        injection hp with hp1 hp2
        rw [← hp1]
        exact hs
      · rw [readSDRs.eq_def] at hr
        dsimp only at hr
        rw [if_neg h0] at hr
        split at hr
        · exact absurd hr (by simp)
        · by_cases hf : first = true
          · rw [if_pos hf] at hr
            exact readSDRsTail_sorted size fuel ih _ _ _ _ _ _ _ hs _ _ hr
          · rw [if_neg hf] at hr
            exact readSDRsTail_sorted size fuel ih _ _ _ _ _ _ _ hs _ _
              (readSDRs_nonfirst_reduce hr)

/-- Every sector produced by the per-sector loop of `read_imd_track` has a
sorted data map (each starts from an empty map). -/
theorem readSectors_sorted (size : Nat) (old : List Sector) :
    ∀ (maps : List (Nat × Nat × Nat)) (s : List Nat) (i : Nat)
    (secs : List Sector) (s2 : List Nat),
    readSectors size old maps s i = .ok (secs, s2) →
    ∀ sec ∈ secs, sortedKeys sec.datas = true := by
  intro maps
  induction maps with
  | nil =>
    intro s i secs s2 hr sec hsec
    simp only [readSectors] at hr
    injection hr with hp
    injection hp with hp1 hp2
    rw [← hp1] at hsec
    simp at hsec
  | cons mp maps ih =>
    intro s i secs s2 hr sec hsec
    obtain ⟨sec_id, lc, lh⟩ := mp
    simp only [readSectors] at hr
    split at hr
    · exact absurd hr (by simp)
    · split at hr
      · exact absurd hr (by simp)
      · split at hr
        · exact absurd hr (by simp)
        · injection hr with hp
          injection hp with hp1 hp2
          rw [← hp1] at hsec
          rcases List.mem_cons.mp hsec with h | h
          · subst h
            rename readSDRs _ _ _ _ _ = _ => hsdr
            refine readSDRs_sorted size _ true _ _ _ _ ?_ hsdr
            rfl
          · rename readSectors _ _ _ _ _ = _ => hrest
            exact ih _ _ _ _ hrest sec h

/-- `TracksSorted` only looks at the track grid. -/
theorem tracksSorted_of_tracks_eq {D1 D2 : Disk} (h : D1.tracks = D2.tracks)
    (hd : TracksSorted D2) : TracksSorted D1 := by
  intro t ht
  exact hd t (h ▸ ht)

/-- Storing a track whose sectors are all sorted preserves
`TracksSorted`. -/
theorem tracksSorted_setTrack {D : Disk} {pc ph : Nat} {T : Track}
    (hT : ∀ sec ∈ T.sectors, sortedKeys sec.datas = true)
    (hD : TracksSorted D) : TracksSorted (setTrack D pc ph T) := by
  intro t ht
  rcases List.mem_or_eq_of_mem_set ht with h | h
  · exact hD t h
  · subst h
    exact hT

/-- One track record read keeps every stored data map sorted. -/
theorem read_imd_track_sorted (d : Disk) (s : List Nat) (d2 : Disk)
    (s2 : List Nat) (hr : read_imd_track d s = .ok (some (d2, s2)))
    (hd : TracksSorted d) : TracksSorted d2 := by
  cases s with
  | nil => simp [read_imd_track] at hr
  | cons b0 srest =>
    rw [read_imd_track.eq_def] at hr
    dsimp only at hr
    cases hrb : readBytes 5 (b0 :: srest) with
    | none =>
      simp only [hrb] at hr
      exact absurd hr (by simp)
    | some p =>
      obtain ⟨hd5, s5⟩ := p
      simp only [hrb] at hr
      rcases hd5 with _ | ⟨h0, _ | ⟨h1, _ | ⟨h2, _ | ⟨h3, _ | ⟨h4,
        _ | ⟨h5x, rest5⟩⟩⟩⟩⟩⟩ <;> (try dsimp only at hr) <;>
        try exact Except.noConfusion hr
      by_cases hc1 : 256 ≤ h1
      · rw [if_pos hc1] at hr
        exact absurd hr (by simp)
      · rw [if_neg hc1] at hr
        by_cases hfl : h2 / 4 % 16 ≠ 0
        · rw [if_pos hfl] at hr
          exact absurd hr (by simp)
        · rw [if_neg hfl] at hr
          by_cases hhd : 2 ≤ h2 % 4
          · rw [if_pos hhd] at hr
            exact absurd hr (by simp)
          · rw [if_neg hhd] at hr
            by_cases hm : DATA_MODES.contains h0 = false
            · rw [if_pos hm] at hr
              exact absurd hr (by simp)
            · rw [if_neg hm] at hr
              generalize hD1 : (if d.num_phys_cyls ≤ h1 then
                { d with num_phys_cyls := h1 + 1 } else d) = D1 at hr
              have hD1t : D1.tracks = d.tracks := by
                rw [← hD1]
                split <;> rfl
              generalize hD2 : (if D1.num_phys_heads ≤ h2 % 4 then
                { D1 with num_phys_heads := h2 % 4 + 1 } else D1) = D2 at hr
              have hD2t : D2.tracks = d.tracks := by
                rw [← hD2]
                split <;> simp [hD1t]
              have hd2 : TracksSorted D2 := tracksSorted_of_tracks_eq hD2t hd
              by_cases hns : h3 = 0
              · rw [if_pos hns] at hr
                injection hr with hq
                injection hq with hq2
                injection hq2 with hq3 hq4
                rw [← hq3]
                exact tracksSorted_setTrack (by simp) hd2
              · rw [if_neg hns] at hr
                by_cases hsz : h4 = 255
                · rw [if_pos hsz] at hr
                  exact absurd hr (by simp)
                · rw [if_neg hsz] at hr
                  cases hsm : readBytes h3 s5 with
                  | none =>
                    simp only [hsm] at hr
                    exact absurd hr (by simp)
                  | some q =>
                    obtain ⟨sec_map, s6⟩ := q
                    simp only [hsm] at hr
                    cases hcm : readMapBlock (h2 / 128 % 2 = 1) h3 h1 s6
                        "Couldn't read IMD cylinder map" with
                    | error e =>
                      simp only [hcm] at hr
                      exact absurd hr (by simp)
                    | ok q2 =>
                      obtain ⟨cyl_map, s7⟩ := q2
                      simp only [hcm] at hr
                      cases hhm : readMapBlock (h2 / 64 % 2 = 1) h3 (h2 % 4)
                          s7 "Couldn't read IMD head map" with
                      | error e =>
                        simp only [hhm] at hr
                        exact absurd hr (by simp)
                      | ok q3 =>
                        obtain ⟨head_map, s8⟩ := q3
                        simp only [hhm] at hr
                        cases hsec : readSectors (sector_bytes h4)
                            (getTrack D2 h1 (h2 % 4)).sectors
                            (zip3 sec_map cyl_map head_map) s8 0 with
                        | error e =>
                          simp only [hsec] at hr
                          exact absurd hr (by simp)
                        | ok q4 =>
                          obtain ⟨secs, s9⟩ := q4
                          simp only [hsec] at hr
                          injection hr with hq
                          injection hq with hq2
                          injection hq2 with hq3 hq4
                          rw [← hq3]
                          refine tracksSorted_setTrack ?_ hd2
                          exact readSectors_sorted _ _ _ _ _ _ _ hsec

/-- The whole-file track loop keeps every stored data map sorted. -/
theorem read_imd_tracks_sorted : ∀ (fuel : Nat) (d : Disk) (s : List Nat)
    (d2 : Disk), read_imd_tracks fuel d s = .ok d2 →
    TracksSorted d → TracksSorted d2 := by
  intro fuel
  induction fuel with
  | zero =>
    intro d s d2 hr hd
    simp [read_imd_tracks] at hr
  | succ fuel ih =>
    intro d s d2 hr hd
    rw [read_imd_tracks] at hr
    cases htr : read_imd_track d s with
    | error e => rw [htr] at hr; exact absurd hr (by simp)
    | ok o =>
      cases o with
      | none =>
        rw [htr] at hr
        injection hr with hq
        rw [← hq]
        exact hd
      | some p =>
        obtain ⟨d3, s3⟩ := p
        rw [htr] at hr
        exact ih d3 s3 d2 hr (read_imd_track_sorted d s d3 s3 htr hd)

/-- Every disk a successful `read_imd` returns has all data maps sorted. -/
theorem read_imd_sorted (s : List Nat) (d : Disk)
    (hr : read_imd s = .ok d) : TracksSorted d := by
  rw [read_imd] at hr
  cases hsc : splitComment s with
  | none => rw [hsc] at hr; exact absurd hr (by simp)
  | some p =>
    obtain ⟨com, rest⟩ := p
    rw [hsc] at hr
    refine read_imd_tracks_sorted _ _ _ _ hr ?_
    intro t ht sec hsec
    simp only [init_disk, List.mem_map] at ht
    obtain ⟨i, _, hti⟩ := ht
    rw [← hti] at hsec
    simp [init_track] at hsec

/-! ## Claim C3: the sector data invariant across every public operation -/

/-- A MISSING sector with no data and no deleted mark satisfies the
invariant. -/
theorem sectorDataInv_of_missing {sec : Sector} (h1 : sec.status = .missing)
    (h2 : sec.datas = []) (h3 : sec.deleted = false) : SectorDataInv sec := by
  refine ⟨?_, ?_, ?_, ?_⟩ <;> simp [h1, h2, h3]

/-- A non-MISSING sector with at least one stored read satisfies the
invariant. -/
theorem sectorDataInv_of_nonmissing {sec : Sector}
    (h1 : sec.status ≠ .missing) (h2 : sec.datas ≠ []) :
    SectorDataInv sec := by
  have hp := one_le_length_of_ne_nil h2
  refine ⟨⟨?_, ?_⟩, fun _ => hp, fun _ => hp, fun _ => h1⟩
  · intro he
    exact absurd (List.isEmpty_iff.mp he) h2
  · intro hm
    exact absurd hm h1

/-- Every sector the READ-ID skip loop appends is a fresh MISSING sector
with empty `datas` (only the logical address fields are filled in), and the
state grows by exactly that sector. -/
theorem readidLoop_ok (ignore : Option Nat) (st : ProbeState) :
    ∀ (s : List (Option ReadidReply)) (sec : Sector) (st2 : ProbeState)
    (rest : List (Option ReadidReply)),
    readidLoop ignore st s = .ok sec st2 rest →
    (sec.status = .missing ∧ sec.datas = [] ∧ sec.deleted = false) ∧
    st2.sectors = st.sectors ++ [sec] := by
  intro s
  induction s with
  | nil =>
    intro sec st2 rest hr
    exact ReadidStep.noConfusion hr
  | cons r s0 ih =>
    intro sec st2 rest hr
    cases r with
    | none =>
      simp only [readidLoop] at hr
      exact ReadidStep.noConfusion hr
    | some reply =>
      simp only [readidLoop] at hr
      by_cases hig : ignore = some reply.r_sec
      · rw [if_pos hig] at hr
        exact ih sec st2 rest hr
      · rw [if_neg hig] at hr
        by_cases hsz : reply.r_size = 255
        · rw [if_pos hsz] at hr
          exact ReadidStep.noConfusion hr
        · rw [if_neg hsz] at hr
          by_cases hnew : st.sector_size_code = 255
          · rw [if_pos hnew] at hr
            injection hr with h1 h2 h3
            subst h1
            subst h2
            exact ⟨⟨rfl, rfl, rfl⟩, rfl⟩
          · rw [if_neg hnew] at hr
            by_cases hmix : st.sector_size_code ≠ reply.r_size
            · rw [if_pos hmix] at hr
              exact ReadidStep.noConfusion hr
            · rw [if_neg hmix] at hr
              injection hr with h1 h2 h3
              subst h1
              subst h2
              exact ⟨⟨rfl, rfl, rfl⟩, rfl⟩

/-- `track_readid` appends one fresh MISSING sector with empty `datas`. -/
theorem track_readid_ok (ignore : Option Nat) (st : ProbeState)
    (s : List (Option ReadidReply)) (sec : Sector) (st2 : ProbeState)
    (rest : List (Option ReadidReply))
    (hr : track_readid ignore st s = .ok sec st2 rest) :
    (sec.status = .missing ∧ sec.datas = [] ∧ sec.deleted = false) ∧
    st2.sectors = st.sectors ++ [sec] := by
  rw [track_readid] at hr
  by_cases hfull : st.sectors.length = 255
  · rw [if_pos hfull] at hr
    exact ReadidStep.noConfusion hr
  · rw [if_neg hfull] at hr
    exact readidLoop_ok ignore st s sec st2 rest hr

/-- The ID-collection loop of `probe_track` only appends fresh MISSING
sectors, so every sector of a successfully collected state satisfies the
data invariant whenever the incoming state's do. -/
theorem collectLoop_collected (ignore : Option Nat) :
    ∀ (fuel : Nat) (st : ProbeState) (seen : List Nat) (count : Nat)
    (s : List (Option ReadidReply)) (st2 : ProbeState),
    collectLoop ignore fuel st seen count s = .collected st2 →
    (∀ sec ∈ st.sectors, SectorDataInv sec) →
    ∀ sec ∈ st2.sectors, SectorDataInv sec := by
  intro fuel
  induction fuel with
  | zero =>
    intro st seen count s st2 hr hbase
    exact CollectResult.noConfusion hr
  | succ fuel ih =>
    intro st seen count s st2 hr hbase
    rw [collectLoop] at hr
    cases htr : track_readid ignore st s with
    | die msg =>
      simp only [htr] at hr
      exact CollectResult.noConfusion hr
    | noid =>
      simp only [htr] at hr
      exact CollectResult.noConfusion hr
    | out =>
      simp only [htr] at hr
      exact CollectResult.noConfusion hr
    | ok sec st1 rest =>
      simp only [htr] at hr
      obtain ⟨hfresh, happ⟩ := track_readid_ok ignore st s sec st1 rest htr
      have hbase1 : ∀ x ∈ st1.sectors, SectorDataInv x := by
        intro x hx
        rw [happ] at hx
        rcases List.mem_append.mp hx with h | h
        · exact hbase x h
        · rw [List.mem_singleton.mp h]
          exact sectorDataInv_of_missing hfresh.1 hfresh.2.1 hfresh.2.2
      split at hr
      · injection hr with h2
        rw [← h2]
        exact hbase1
      · split at hr
        · exact CollectResult.noConfusion hr
        · exact ih st1 _ count rest st2 hr hbase1

/-- The BAD/GOOD selection of the first record is never MISSING. -/
theorem ite_status_ne_missing (c : Prop) [Decidable c] :
    (if c then SectorStatus.bad else SectorStatus.good) ≠
      SectorStatus.missing := by
  split <;> simp

/-- One chain-tail step yields a sector satisfying the data invariant: the
status argument is never MISSING and the insert leaves `datas`
non-empty. -/
theorem readSDRsTail_inv (size fuel : Nat)
    (ih : ∀ (sec : Sector) (s : List Nat) (sec2 : Sector) (s2 : List Nat),
      sec.status ≠ .missing → sec.datas ≠ [] →
      readSDRs size fuel false sec s = .ok (sec2, s2) → SectorDataInv sec2)
    (sec : Sector) (s : List Nat) (count : Nat) (another : Bool)
    (status : SectorStatus) (deleted : Bool) (t5 : Nat)
    (hst : status ≠ .missing)
    (sec2 : Sector) (s2 : List Nat)
    (hr : readSDRsTail size fuel sec s count another status deleted t5 =
      .ok (sec2, s2)) :
    SectorDataInv sec2 := by
  rw [readSDRsTail.eq_def] at hr
  dsimp only at hr
  by_cases hco : 1 ≤ t5
  · simp only [hco, if_true] at hr
    cases s with
    | nil => exact absurd hr (by simp)
    | cons fill s3 =>
      dsimp only at hr
      cases hins : (mapInsert sec.datas (List.replicate size fill) count).2
        with
      | false =>
        simp only [hins] at hr
        rw [if_pos trivial] at hr
        exact absurd hr (by simp)
      | true =>
        simp only [hins, Bool.true_eq_false, if_false] at hr
        split at hr
        · exact absurd hr (by simp)
        · split at hr
          · exact ih _ _ _ _ hst
              (mapInsert_ne_nil sec.datas (List.replicate size fill) count)
              hr
          · injection hr with hp
            injection hp with hp1 hp2
            rw [← hp1]
            exact sectorDataInv_of_nonmissing hst
              (mapInsert_ne_nil sec.datas (List.replicate size fill) count)
  · simp only [hco, if_false] at hr
    cases hrb : readBytes size s with
    | none =>
      simp only [hrb] at hr
      exact absurd hr (by simp)
    | some p =>
      obtain ⟨buf, s3⟩ := p
      simp only [hrb] at hr
      cases hins : (mapInsert sec.datas buf count).2 with
      | false =>
        simp only [hins] at hr
        rw [if_pos trivial] at hr
        exact absurd hr (by simp)
      | true =>
        simp only [hins, Bool.true_eq_false, if_false] at hr
        split at hr
        · exact absurd hr (by simp)
        · split at hr
          · exact ih _ _ _ _ hst (mapInsert_ne_nil sec.datas buf count) hr
          · injection hr with hp
            injection hp with hp1 hp2
            rw [← hp1]
            exact sectorDataInv_of_nonmissing hst
              (mapInsert_ne_nil sec.datas buf count)

/-- The SDR chain establishes the data invariant: started on a fresh
MISSING sector, it either leaves it MISSING and empty (type byte `0x00`) or
marks it BAD/GOOD with at least one stored read. -/
theorem readSDRs_inv (size : Nat) : ∀ (fuel : Nat) (first : Bool)
    (sec : Sector) (s : List Nat) (sec2 : Sector) (s2 : List Nat),
    (first = true →
      sec.status = .missing ∧ sec.datas = [] ∧ sec.deleted = false) →
    (first = false → sec.status ≠ .missing ∧ sec.datas ≠ []) →
    readSDRs size fuel first sec s = .ok (sec2, s2) →
    SectorDataInv sec2 := by
  intro fuel
  induction fuel with
  | zero =>
    intro first sec s sec2 s2 hfst hrest hr
    simp [readSDRs] at hr
  | succ fuel ih =>
    intro first sec s sec2 s2 hfst hrest hr
    cases s with
    | nil => simp [readSDRs] at hr
    | cons type0 srest =>
      by_cases h0 : type0 = 0
      · subst h0
        rw [readSDRs.eq_def] at hr
        dsimp only at hr
        rw [if_pos rfl] at hr
        injection hr with hp
        injection hp with hp1 hp2
        rw [← hp1]
        cases first with
        | true =>
          obtain ⟨hm, hd, hdel⟩ := hfst rfl
          exact sectorDataInv_of_missing hm hd hdel
        | false =>
          obtain ⟨hm, hd⟩ := hrest rfl
          exact sectorDataInv_of_nonmissing hm hd
      · rw [readSDRs.eq_def] at hr
        dsimp only at hr
        rw [if_neg h0] at hr
        split at hr
        · exact absurd hr (by simp)
        · by_cases hf : first = true
          · rw [if_pos hf] at hr
            refine readSDRsTail_inv size fuel
              (fun a b c d hna hnb hrr => ih false a b c d
                (fun h => Bool.noConfusion h) (fun _ => ⟨hna, hnb⟩) hrr)
              _ _ _ _ _ _ _ (ite_status_ne_missing _) _ _ hr
          · rw [if_neg hf] at hr
            have hff : first = false := by
              revert hf
              cases first <;> simp
            obtain ⟨hm, hd⟩ := hrest hff
            exact readSDRsTail_inv size fuel
              (fun a b c d hna hnb hrr => ih false a b c d
                (fun h => Bool.noConfusion h) (fun _ => ⟨hna, hnb⟩) hrr)
              _ _ _ _ _ _ _ hm _ _ (readSDRs_nonfirst_reduce hr)

/-- Every sector the per-sector loop of `read_imd_track` produces satisfies
the data invariant (each chain starts from a fresh MISSING sector). -/
theorem readSectors_inv (size : Nat) (old : List Sector) :
    ∀ (maps : List (Nat × Nat × Nat)) (s : List Nat) (i : Nat)
    (secs : List Sector) (s2 : List Nat),
    readSectors size old maps s i = .ok (secs, s2) →
    ∀ sec ∈ secs, SectorDataInv sec := by
  intro maps
  induction maps with
  | nil =>
    intro s i secs s2 hr sec hsec
    simp only [readSectors] at hr
    injection hr with hp
    injection hp with hp1 hp2
    rw [← hp1] at hsec
    simp at hsec
  | cons mp maps ih =>
    intro s i secs s2 hr sec hsec
    obtain ⟨sec_id, lc, lh⟩ := mp
    simp only [readSectors] at hr
    split at hr
    · exact absurd hr (by simp)
    · split at hr
      · exact absurd hr (by simp)
      · split at hr
        · exact absurd hr (by simp)
        · injection hr with hp
          injection hp with hp1 hp2
          rw [← hp1] at hsec
          rcases List.mem_cons.mp hsec with h | h
          · subst h
            rename readSDRs _ _ _ _ _ = _ => hsdr
            refine readSDRs_inv size _ true _ _ _ _ ?_ ?_ hsdr
            · intro _
              exact ⟨rfl, rfl, rfl⟩
            · intro h
              exact Bool.noConfusion h
          · rename readSectors _ _ _ _ _ = _ => hrest
            exact ih _ _ _ _ hrest sec h

/-- The data invariant of every sector across a whole disk. -/
def TracksDataInv (d : Disk) : Prop :=
  ∀ t ∈ d.tracks, ∀ sec ∈ t.sectors, SectorDataInv sec

/-- `TracksDataInv` only looks at the track grid. -/
theorem tracksDataInv_of_tracks_eq {D1 D2 : Disk}
    (h : D1.tracks = D2.tracks) (hd : TracksDataInv D2) :
    TracksDataInv D1 := by
  intro t ht
  exact hd t (h ▸ ht)

/-- Storing a track whose sectors all satisfy the data invariant preserves
`TracksDataInv`. -/
theorem tracksDataInv_setTrack {D : Disk} {pc ph : Nat} {T : Track}
    (hT : ∀ sec ∈ T.sectors, SectorDataInv sec)
    (hD : TracksDataInv D) : TracksDataInv (setTrack D pc ph T) := by
  intro t ht
  rcases List.mem_or_eq_of_mem_set ht with h | h
  · exact hD t h
  · subst h
    exact hT

/-- One track record read keeps the data invariant across the disk. -/
theorem read_imd_track_datainv (d : Disk) (s : List Nat) (d2 : Disk)
    (s2 : List Nat) (hr : read_imd_track d s = .ok (some (d2, s2)))
    (hd : TracksDataInv d) : TracksDataInv d2 := by
  cases s with
  | nil => simp [read_imd_track] at hr
  | cons b0 srest =>
    rw [read_imd_track.eq_def] at hr
    dsimp only at hr
    cases hrb : readBytes 5 (b0 :: srest) with
    | none =>
      simp only [hrb] at hr
      exact absurd hr (by simp)
    | some p =>
      obtain ⟨hd5, s5⟩ := p
      simp only [hrb] at hr
      rcases hd5 with _ | ⟨h0, _ | ⟨h1, _ | ⟨h2, _ | ⟨h3, _ | ⟨h4,
        _ | ⟨h5x, rest5⟩⟩⟩⟩⟩⟩ <;> (try dsimp only at hr) <;>
        try exact Except.noConfusion hr
      by_cases hc1 : 256 ≤ h1
      · rw [if_pos hc1] at hr
        exact absurd hr (by simp)
      · rw [if_neg hc1] at hr
        by_cases hfl : h2 / 4 % 16 ≠ 0
        · rw [if_pos hfl] at hr
          exact absurd hr (by simp)
        · rw [if_neg hfl] at hr
          by_cases hhd : 2 ≤ h2 % 4
          · rw [if_pos hhd] at hr
            exact absurd hr (by simp)
          · rw [if_neg hhd] at hr
            by_cases hm : DATA_MODES.contains h0 = false
            · rw [if_pos hm] at hr
              exact absurd hr (by simp)
            · rw [if_neg hm] at hr
              generalize hD1 : (if d.num_phys_cyls ≤ h1 then
                { d with num_phys_cyls := h1 + 1 } else d) = D1 at hr
              have hD1t : D1.tracks = d.tracks := by
                rw [← hD1]
                split <;> rfl
              generalize hD2 : (if D1.num_phys_heads ≤ h2 % 4 then
                { D1 with num_phys_heads := h2 % 4 + 1 } else D1) = D2 at hr
              have hD2t : D2.tracks = d.tracks := by
                rw [← hD2]
                split <;> simp [hD1t]
              have hd2 : TracksDataInv D2 :=
                tracksDataInv_of_tracks_eq hD2t hd
              by_cases hns : h3 = 0
              · rw [if_pos hns] at hr
                injection hr with hq
                injection hq with hq2
                injection hq2 with hq3 hq4
                rw [← hq3]
                exact tracksDataInv_setTrack (by simp) hd2
              · rw [if_neg hns] at hr
                by_cases hsz : h4 = 255
                · rw [if_pos hsz] at hr
                  exact absurd hr (by simp)
                · rw [if_neg hsz] at hr
                  cases hsm : readBytes h3 s5 with
                  | none =>
                    simp only [hsm] at hr
                    exact absurd hr (by simp)
                  | some q =>
                    obtain ⟨sec_map, s6⟩ := q
                    simp only [hsm] at hr
                    cases hcm : readMapBlock (h2 / 128 % 2 = 1) h3 h1 s6
                        "Couldn't read IMD cylinder map" with
                    | error e =>
                      simp only [hcm] at hr
                      exact absurd hr (by simp)
                    | ok q2 =>
                      obtain ⟨cyl_map, s7⟩ := q2
                      simp only [hcm] at hr
                      cases hhm : readMapBlock (h2 / 64 % 2 = 1) h3 (h2 % 4)
                          s7 "Couldn't read IMD head map" with
                      | error e =>
                        simp only [hhm] at hr
                        exact absurd hr (by simp)
                      | ok q3 =>
                        obtain ⟨head_map, s8⟩ := q3
                        simp only [hhm] at hr
                        cases hsec : readSectors (sector_bytes h4)
                            (getTrack D2 h1 (h2 % 4)).sectors
                            (zip3 sec_map cyl_map head_map) s8 0 with
                        | error e =>
                          simp only [hsec] at hr
                          exact absurd hr (by simp)
                        | ok q4 =>
                          obtain ⟨secs, s9⟩ := q4
                          simp only [hsec] at hr
                          injection hr with hq
                          injection hq with hq2
                          injection hq2 with hq3 hq4
                          rw [← hq3]
                          refine tracksDataInv_setTrack ?_ hd2
                          exact readSectors_inv _ _ _ _ _ _ _ hsec

/-- The whole-file track loop keeps the data invariant across the disk. -/
theorem read_imd_tracks_datainv : ∀ (fuel : Nat) (d : Disk) (s : List Nat)
    (d2 : Disk), read_imd_tracks fuel d s = .ok d2 →
    TracksDataInv d → TracksDataInv d2 := by
  intro fuel
  induction fuel with
  | zero =>
    intro d s d2 hr hd
    simp [read_imd_tracks] at hr
  | succ fuel ih =>
    intro d s d2 hr hd
    rw [read_imd_tracks] at hr
    cases htr : read_imd_track d s with
    | error e =>
      rw [htr] at hr
      exact absurd hr (by simp)
    | ok o =>
      cases o with
      | none =>
        rw [htr] at hr
        injection hr with hq
        rw [← hq]
        exact hd
      | some p =>
        obtain ⟨d3, s3⟩ := p
        rw [htr] at hr
        exact ih d3 s3 d2 hr (read_imd_track_datainv d s d3 s3 htr hd)

/-- Every disk a successful `read_imd` returns satisfies the data invariant
in every sector. -/
theorem read_imd_datainv (s : List Nat) (d : Disk)
    (hr : read_imd s = .ok d) : TracksDataInv d := by
  rw [read_imd] at hr
  cases hsc : splitComment s with
  | none =>
    rw [hsc] at hr
    exact absurd hr (by simp)
  | some p =>
    obtain ⟨com, rest⟩ := p
    rw [hsc] at hr
    refine read_imd_tracks_datainv _ _ _ _ hr ?_
    intro t ht sec hsec
    simp only [init_disk, List.mem_map] at ht
    obtain ⟨i, _, hti⟩ := ht
    rw [← hti] at hsec
    simp [init_track] at hsec

/-- The writer's per-sector asserts enforce the data invariant: a sector
violating it makes `write_imd_track` fail, so a successful write certifies
the invariant of every sector it serialized. -/
theorem write_sdr_all_inv (size_code : Nat) :
    ∀ (secs : List Sector) (bytes : List Nat),
    write_sdr_all size_code secs = .ok bytes →
    ∀ sec ∈ secs, SectorDataInv sec := by
  intro secs
  induction secs with
  | nil =>
    intro bytes hr sec hsec
    simp at hsec
  | cons s0 rest ih =>
    intro bytes hr sec hsec
    simp only [write_sdr_all] at hr
    by_cases ha : s0.datas.isEmpty ≠ (s0.status == SectorStatus.missing)
    · rw [if_pos ha] at hr
      exact Except.noConfusion hr
    · rw [if_neg ha] at hr
      by_cases hb : (s0.deleted && s0.datas.isEmpty) = true
      · rw [if_pos hb] at hr
        exact Except.noConfusion hr
      · rw [if_neg hb] at hr
        have ha2 : s0.datas.isEmpty = (s0.status == SectorStatus.missing) :=
          not_ne_iff.mp ha
        have hb2 : ¬(s0.deleted = true ∧ s0.datas.isEmpty = true) := by
          simpa [Bool.and_eq_true] using hb
        rcases List.mem_cons.mp hsec with h | h
        · subst h
          refine ⟨?_, ?_, ?_, ?_⟩
          · rw [ha2]
            cases hst : sec.status <;> simp
          · intro hg
            have hemp : sec.datas.isEmpty = false := by
              rw [ha2, hg]
              simp
            have hne : sec.datas ≠ [] := by
              intro h0
              rw [h0] at hemp
              simp at hemp
            exact one_le_length_of_ne_nil hne
          · intro hg
            have hemp : sec.datas.isEmpty = false := by
              rw [ha2, hg]
              simp
            have hne : sec.datas ≠ [] := by
              intro h0
              rw [h0] at hemp
              simp at hemp
            exact one_le_length_of_ne_nil hne
          · intro hdel hm
            have hemp : sec.datas.isEmpty = true := by
              rw [ha2, hm]
              simp
            exact hb2 ⟨hdel, hemp⟩
        · by_cases hemp : s0.datas.isEmpty = true
          · rw [if_pos hemp] at hr
            dsimp only at hr
            cases hrest : write_sdr_all size_code rest with
            | error e =>
              simp only [hrest] at hr
              exact Except.noConfusion hr
            | ok tail =>
              exact ih _ hrest sec h
          · rw [if_neg hemp] at hr
            cases hch : write_sdr_chain (sector_bytes size_code)
                (if s0.deleted then statusType s0.status + 2
                 else statusType s0.status) s0.datas with
            | error e =>
              simp only [hch] at hr
              exact Except.noConfusion hr
            | ok b =>
              simp only [hch] at hr
              cases hrest : write_sdr_all size_code rest with
              | error e =>
                simp only [hrest] at hr
                exact Except.noConfusion hr
              | ok tail =>
                exact ih _ hrest sec h

/-- A successful `write_imd_track` certifies the data invariant of every
sector of the track. -/
theorem write_imd_track_inv (t : Track) (bytes : List Nat)
    (hw : write_imd_track t = .ok bytes) :
    ∀ sec ∈ t.sectors, SectorDataInv sec := by
  cases hb : write_sdr_all t.sector_size_code t.sectors with
  | error e =>
    simp only [write_imd_track, hb] at hw
    exact absurd hw (by simp)
  | ok body =>
    exact write_sdr_all_inv t.sector_size_code t.sectors body hb

/-- Claim C3 (amended).  The sector data invariant — `datas` is empty iff
status is MISSING, a GOOD or BAD sector holds at least one read, and
deleted implies non-MISSING — holds after every public operation, with the
GOOD clause weakened from "exactly one" to "at least one"
(`claim_C3_counterexample`: a successful retry after CRC-failed reads keeps
the bad reads, so a GOOD sector can hold several entries).
First conjunct (probing): the ID-collection loop appends only fresh MISSING
sectors with empty `datas`, so every collected sector satisfies the
invariant (the later cycle truncation keeps a prefix, hence members, of
that list).  Second and third conjuncts (track reading including retries):
every single-sector read step preserves the invariant, and the whole-track
fast path yields GOOD sectors with exactly one entry.  Fourth conjunct
(IMD reading): every sector of a disk a successful `read_imd` returns
satisfies it.  Fifth conjunct (IMD writing): the writer is pure — it
changes no sector — and its asserts reject any sector violating the
invariant, so a successful `write_imd_track` certifies it. -/
theorem claim_C3_amended :
    (∀ (ignore : Option Nat) (fuel : Nat) (st : ProbeState)
      (seen : List Nat) (count : Nat) (s : List (Option ReadidReply))
      (st2 : ProbeState),
      collectLoop ignore fuel st seen count s = .collected st2 →
      (∀ sec ∈ st.sectors, SectorDataInv sec) →
      ∀ sec ∈ st2.sectors, SectorDataInv sec) ∧
    (∀ (sec : Sector) (r : ReadOutcome),
      SectorDataInv sec → SectorDataInv (readSectorStep sec r)) ∧
    (∀ (sec : Sector) (slice : Data),
      (readSectorWholeTrack sec slice).datas.length = 1 ∧
      SectorDataInv (readSectorWholeTrack sec slice)) ∧
    (∀ (s : List Nat) (d : Disk), read_imd s = .ok d →
      ∀ t ∈ d.tracks, ∀ sec ∈ t.sectors, SectorDataInv sec) ∧
    (∀ (t : Track) (bytes : List Nat), write_imd_track t = .ok bytes →
      ∀ sec ∈ t.sectors, SectorDataInv sec) := by
  refine ⟨?_, ?_, ?_, ?_, ?_⟩
  · intro ignore fuel st seen count s st2 hr hbase
    exact collectLoop_collected ignore fuel st seen count s st2 hr hbase
  · intro sec r hinv
    cases r with
    | success buf st2 =>
      have hne := mapInsert_ne_nil sec.datas buf
        (if sec.datas.isEmpty = true then 1 else UINT32MAX)
      have hp := one_le_length_of_ne_nil hne
      refine ⟨?_, ?_, ?_, ?_⟩ <;>
        simp_all [readSectorStep, List.isEmpty_iff]
    | failCrc buf st2 =>
      cases hf : mapFind sec.datas buf with
      | none =>
        have hne := mapInsert_ne_nil sec.datas buf 1
        have hp := one_le_length_of_ne_nil hne
        refine ⟨?_, ?_, ?_, ?_⟩ <;>
          simp_all [readSectorStep, List.isEmpty_iff]
      | some c =>
        have hne := mapFind_some_ne_nil hf
        have hp := one_le_length_of_ne_nil hne
        have hlen := mapSet_length sec.datas buf
          (if c ≠ UINT32MAX then c + 1 else c)
        have hp2 : 1 ≤ (mapSet sec.datas buf
            (if c ≠ UINT32MAX then c + 1 else c)).length := by omega
        have hne2 : mapSet sec.datas buf
            (if c ≠ UINT32MAX then c + 1 else c) ≠ [] := by
          intro h0
          rw [h0] at hp2
          simp at hp2
        refine ⟨?_, ?_, ?_, ?_⟩ <;>
          simp_all [readSectorStep, List.isEmpty_iff]
    | failOther => exact hinv
  · intro sec slice
    refine ⟨rfl, ?_, ?_, ?_, ?_⟩ <;> simp [readSectorWholeTrack]
  · intro s d hr t ht sec hsec
    exact read_imd_datainv s d hr t ht sec hsec
  · intro t bytes hw sec hsec
    exact write_imd_track_inv t bytes hw sec hsec

/-- Witness for claim C3: the amended invariant, checked on a concrete
single-sector read step from the initial sector. -/
theorem claim_C3_witness :
    SectorDataInv (readSectorStep init_sector (.failCrc [1] 0)) :=
  claim_C3_amended.2.1 init_sector (.failCrc [1] 0) (by decide)

/-- Claim C10.  First conjunct: a chain in which a second record decodes to
the same byte string as the first (`[9, 7]` is a DATA + ANOTHER-FOLLOWS
record with payload `7`, `[1, 7]` a plain DATA record with the same
payload) aborts with the duplicate-data diagnostic.  Second conjunct: in
every disk a successful `read_imd` returns, the byte strings stored in any
sector's `datas` are pairwise distinct (the maps are `std::map`s built by
`insert`, which is what makes the duplicate fatal rather than silent). -/
theorem claim_C10 :
    readSDRs 1 4 true init_sector [9, 7, 1, 7] =
      .error "unexpected duplicate data" ∧
    (∀ (s : List Nat) (d : Disk), read_imd s = .ok d →
      ∀ t ∈ d.tracks, ∀ sec ∈ t.sectors,
        sec.datas.Pairwise (fun a b => a.1 ≠ b.1)) := by
  refine ⟨?_, ?_⟩
  · simp [readSDRs, readSDRsTail.eq_def, readBytes, mapInsert, dataLt,
      init_sector]
  · intro s d hr t ht sec hsec
    exact sortedKeys_pair_distinct (read_imd_sorted s d hr t ht sec hsec)

/-! ## Claims C2 and C9: the codec round trip -/

/-- A disk with one completely unreadable GUESSED track at cylinder 0 head
0 (its format was copied from a neighbouring track, which acquisition does
when probing is skipped). -/
def c2guess : Disk :=
  setTrack
    { init_disk with
      comment := [], num_phys_cyls := 1, num_phys_heads := 1 }
    0 0
    { status := .guessed, data_mode := 5, phys_cyl := 0, phys_head := 0,
      sector_size_code := 2, sectors := [] }

/-- A minimal disk satisfying the acquisition invariants (one in-region
track, still in its initial state). -/
def c2probe : Disk :=
  { init_disk with num_phys_cyls := 1, num_phys_heads := 1 }

/-- Claim C2, counterexample.  `c2guess` satisfies the model invariants and
is encodable, but parsing its encoding yields `probify c2guess` — its
GUESSED track has become PROBED — which is a structural difference outside
the `datas` iteration order, refuting `parse(encode(d)) == d` as stated. -/
theorem claim_C2_counterexample :
    AcqInv c2guess ∧
    write_imd c2guess = .ok [26, 5, 0, 0, 0, 2] ∧
    read_imd [26, 5, 0, 0, 0, 2] = .ok (probify c2guess) ∧
    probify c2guess ≠ c2guess := by
  exact ⟨by decide, by rfl, by rfl, by decide⟩

/-- Claim C2 (amended).  For every disk satisfying the model invariants the
encoder succeeds and parsing the encoded bytes restores the disk exactly,
except that every in-region track's status is PROBED (the file format does
not record the PROBED/GUESSED distinction); in particular each sector's
`datas` entries come back identical and in the same order. -/
theorem claim_C2_amended (d : Disk) (hinv : AcqInv d) :
    ∃ bs, write_imd d = .ok bs ∧ read_imd bs = .ok (probify d) :=
  write_then_read_imd d hinv

/-- Witness for claim C2 at the concrete disk `c2probe`. -/
theorem claim_C2_witness :
    AcqInv c2probe ∧
    ∃ bs, write_imd c2probe = .ok bs ∧ read_imd bs = .ok (probify c2probe)
    := by
  have h : AcqInv c2probe := by decide
  exact ⟨h, claim_C2_amended c2probe h⟩

/-- In the track grid of `probify` only track statuses change, never the
sectors. -/
theorem probify_getTrack_sectors (d : Disk) (c h : Nat) (hc : c < 256)
    (hh : h < 2) :
    (getTrack (probify d) c h).sectors = (getTrack d c h).sectors := by
  rw [getTrack, getTrack]
  simp only [probify]
  rw [getD_range_map _ 512 _ _ (by omega)]
  split <;> rfl

/-- Claim C9, counterexample.  Two CRC-failed reads arrive in the order
`[2]` then `[1]`: the sector's `datas` lists `[1]` first — `std::map` key
order, not insertion order — refuting "it is the insertion order of the
reads". -/
theorem claim_C9_counterexample :
    (readSectorStep (readSectorStep init_sector (.failCrc [2] 0))
      (.failCrc [1] 0)).datas.map Prod.fst = [[1], [2]] := by
  decide

/-- Claim C9 (amended).  First conjunct: every single-sector read step
keeps the `datas` mapping sorted by its byte-string key (the `std::map`
order the flattener's positional "IMD data id" indexes).  Second conjunct:
a serialization cycle preserves each sector's entry list — and hence every
positional index — exactly. -/
theorem claim_C9_amended :
    (∀ (sec : Sector) (r : ReadOutcome), sortedKeys sec.datas = true →
      sortedKeys (readSectorStep sec r).datas = true) ∧
    (∀ d : Disk, AcqInv d → ∃ bs, write_imd d = .ok bs ∧
      ∃ d2, read_imd bs = .ok d2 ∧ ∀ c, c < 256 → ∀ h, h < 2 →
        (getTrack d2 c h).sectors.map Sector.datas =
        (getTrack d c h).sectors.map Sector.datas) := by
  constructor
  · intro sec r hs
    cases r with
    | success buf st2 => simpa [readSectorStep] using mapInsert_sorted hs
    | failCrc buf st2 =>
      cases hf : mapFind sec.datas buf with
      | none => simpa [readSectorStep, hf] using mapInsert_sorted hs
      | some c =>
        simp only [readSectorStep, hf]
        rw [sortedKeys_mapSet]
        exact hs
    | failOther => exact hs
  · intro d hinv
    obtain ⟨bs, hw, hrd⟩ := write_then_read_imd d hinv
    refine ⟨bs, hw, probify d, hrd, ?_⟩
    intro c hc h hh
    rw [probify_getTrack_sectors d c h hc hh]

/-- Witness for claim C9: sorted order is kept on a concrete step. -/
theorem claim_C9_witness :
    sortedKeys (readSectorStep c6sector (.failCrc [3] 0)).datas = true :=
  claim_C9_amended.1 c6sector (.failCrc [3] 0) (by decide)

end Dumpfloppy
